import Mathlib

/-!
# Module binding and dependency-resolution core: a verification development

This file gives a shallow embedding of the binding-and-dependency-resolution
core of the repository: the symbol/dependency graph with its cycle detection,
the module registry and its lifecycle state machine, the driver registry, the
matcher that associates device-tree nodes with drivers, and the deferred-probe
queue.  The repository's source tree contains only the generated module
metadata (MODULE_ALIAS match tables and MODULE_INFO depends strings), so the
algorithmic components are modelled from the specification; the alias tables
themselves are embedded verbatim and checked directly.
-/

namespace LinuxBinding

/-! ## Module registry and symbol graph (data model)

Modelled from the spec: the Module Registry & State Machine (§4.2) and the
Symbol/Dependency Graph (§4.1) are not present in `src/` (only the generated
`MODULE_INFO` declarations are), so they are modelled here from the
specification's words. -/

/-- Module lifecycle states: `Unloaded → Loading → Live → Unloading → Unloaded`. -/
inductive MState where
  | Unloaded
  | Loading
  | Live
  | Unloading
deriving DecidableEq, Repr

/-- A module's dependency declaration: its unique name, the ordered list of
exported symbol names, and the set of required symbol names. -/
structure ModDecl where
  name : String
  exports : List String
  reqs : List String
deriving DecidableEq, Repr

/-- A registry entry: the declaration together with the lifecycle state and
the reference count (number of live dependents). -/
structure ModEntry where
  decl : ModDecl
  state : MState
  refcount : Nat
deriving DecidableEq, Repr

/-- The module registry: owns all per-module entries. -/
structure ModuleRegistry where
  mods : List ModEntry
deriving DecidableEq, Repr

/-- Errors of the module/symbol core (spec §7 taxonomy). -/
inductive MErr where
  | NotFound
  | DuplicateModule
  | DuplicateSymbol
  | NotLive
  | ModuleBusy
  | SymbolInUse (dependents : List String)
  | CyclicDependency (path : List String)
  | UnresolvedSymbol (sym : String)
deriving DecidableEq, Repr

/-- The declared symbol surface of a registry: the declarations of all
entries, in registration order. -/
def declsOf (r : ModuleRegistry) : List ModDecl :=
  r.mods.map (·.decl)

/-- Look a module entry up by name. -/
def findModule (r : ModuleRegistry) (n : String) : Option ModEntry :=
  r.mods.find? (·.decl.name = n)

/-! ## Requires-edges and cycle paths -/

/-- The requires-edge of the dependency graph: module `a` requires a symbol
that module `b` exports (an edge across module boundaries, so `a ≠ b`).
Both endpoints must be declared in the graph `g`. -/
def edgeB (g : List ModDecl) (a b : String) : Bool :=
  decide (a ≠ b) &&
    match g.find? (·.name = a), g.find? (·.name = b) with
    | some da, some db => da.reqs.any (fun s => db.exports.contains s)
    | _, _ => false

/-- A list of module names forms a path when consecutive names are joined by
requires-edges. -/
def pathOk (g : List ModDecl) : List String → Bool
  | [] => true
  | [_] => true
  | a :: b :: rest => edgeB g a b && pathOk g (b :: rest)

/-- A cycle path: a requires-path of at least one edge returning to its start. -/
def isCycle (g : List ModDecl) (p : List String) : Bool :=
  decide (2 ≤ p.length) && pathOk g p && decide (p.head? = p.getLast?)

/-- The declared names of the graph. -/
def gNames (g : List ModDecl) : List String :=
  g.map (·.name)

/-- Direct successors of a node along requires-edges. -/
def succsOf (g : List ModDecl) (a : String) : List String :=
  (gNames g).filter (fun b => edgeB g a b)

/-- Depth-first bounded search for a requires-path from `cur` to `target`,
returning the path (including both endpoints) when one is found. -/
def searchPath (g : List ModDecl) : Nat → String → String → Option (List String)
  | 0, _, _ => none
  | fuel + 1, cur, target =>
    let nexts := succsOf g cur
    if target ∈ nexts then some [cur, target]
    else nexts.findSome? (fun nxt => (searchPath g fuel nxt target).map (cur :: ·))

/-- Cycle detection for a candidate module: a depth-first traversal over the
declared graph looking for a requires-path from the module back to itself
(spec §4.1), reporting the full cycle path. -/
def findCycleFrom (g : List ModDecl) (m : String) : Option (List String) :=
  searchPath g (g.length + 1) m m

/-! ## Module/symbol-graph operations

Every mutating operation returns its result together with the registry it
leaves behind; a failing operation returns the registry unchanged (spec §7:
each operation is atomic with respect to its own registry). -/

/-- `declare` registers a module's symbol surface before it is made live.
It preserves the global uniqueness of symbol names (spec §3, Symbol) by
rejecting an export already declared by another module. -/
def declareOp (r : ModuleRegistry) (d : ModDecl) : Except MErr String × ModuleRegistry :=
  if r.mods.any (·.decl.name = d.name) then (.error .DuplicateModule, r)
  else if d.exports.any (fun s => r.mods.any (fun e => e.decl.exports.contains s)) then
    (.error .DuplicateSymbol, r)
  else (.ok d.name, ⟨r.mods ++ [⟨d, .Unloaded, 0⟩]⟩)

/-- `resolveCheck` finds the first required symbol that has no currently-Live
owner, if any. -/
def resolveCheck (r : ModuleRegistry) (reqs : List String) : Option String :=
  reqs.find? (fun s => !(r.mods.any (fun o => o.state = .Live && o.decl.exports.contains s)))

/-- Commit a successful load: the module becomes `Live` and each module whose
exports satisfied one of its required symbols gains a live dependent. -/
def commitLoad (r : ModuleRegistry) (n : String) (reqs : List String) : ModuleRegistry :=
  ⟨r.mods.map (fun e =>
    if e.decl.name = n then { e with state := .Live }
    else if e.decl.exports.any (fun s => reqs.contains s) then
      { e with refcount := e.refcount + 1 }
    else e)⟩

/-- `load`: a request for a module already `Loading` or `Live` returns the
existing handle (idempotent load).  Otherwise cycle detection runs before the
module may leave `Loading`, then every required symbol is resolved against a
currently-Live owner; any failure leaves the registry unchanged. -/
def loadOp (r : ModuleRegistry) (n : String) : Except MErr String × ModuleRegistry :=
  match findModule r n with
  | none => (.error .NotFound, r)
  | some e =>
    match e.state with
    | .Loading => (.ok n, r)
    | .Live => (.ok n, r)
    | .Unloading => (.error .ModuleBusy, r)
    | .Unloaded =>
      match findCycleFrom (declsOf r) n with
      | some p => (.error (.CyclicDependency p), r)
      | none =>
        match resolveCheck r e.decl.reqs with
        | some s => (.error (.UnresolvedSymbol s), r)
        | none => (.ok n, commitLoad r n e.decl.reqs)

/-- Does some other currently-Live module require one of `e`'s symbols? -/
def liveDependentExists (r : ModuleRegistry) (e : ModEntry) : Bool :=
  r.mods.any (fun x =>
    decide (x.decl.name ≠ e.decl.name) && x.state = .Live &&
      x.decl.reqs.any (fun s => e.decl.exports.contains s))

/-- Commit a successful unload: the module returns to `Unloaded` and each
module that was satisfying one of its required symbols loses a dependent. -/
def commitUnload (r : ModuleRegistry) (n : String) (reqs : List String) : ModuleRegistry :=
  ⟨r.mods.map (fun e =>
    if e.decl.name = n then { e with state := .Unloaded }
    else if e.decl.exports.any (fun s => reqs.contains s) then
      { e with refcount := e.refcount - 1 }
    else e)⟩

/-- `unload`: fails with `ModuleBusy` while the reference count is positive or
any other live module still requires one of this module's symbols; a failed
request leaves the registry unchanged. -/
def unloadOp (r : ModuleRegistry) (n : String) : Except MErr String × ModuleRegistry :=
  match findModule r n with
  | none => (.error .NotFound, r)
  | some e =>
    if e.refcount > 0 || liveDependentExists r e then (.error .ModuleBusy, r)
    else match e.state with
      | .Live => (.ok n, commitUnload r n e.decl.reqs)
      | _ => (.error .NotLive, r)

/-- The names of the live modules that still depend on `e`'s exports. -/
def liveDependentsOf (r : ModuleRegistry) (e : ModEntry) : List String :=
  (r.mods.filter (fun x =>
    decide (x.decl.name ≠ e.decl.name) && x.state = .Live &&
      x.decl.reqs.any (fun s => e.decl.exports.contains s))).map (·.decl.name)

/-- `release` removes a module's exported symbols from the graph; it fails
with `SymbolInUse` while any live module still depends on them, and refuses to
release a module that is still live. -/
def releaseOp (r : ModuleRegistry) (n : String) : Except MErr String × ModuleRegistry :=
  match findModule r n with
  | none => (.error .NotFound, r)
  | some e =>
    if e.state = .Live then (.error .ModuleBusy, r)
    else if liveDependentExists r e then (.error (.SymbolInUse (liveDependentsOf r e)), r)
    else (.ok n, ⟨r.mods.filter (fun x => x.decl.name ≠ n)⟩)

/-- `resolve` as an externally visible query: attempts to bind every required
name of the module to a currently-live owner, reporting the first unresolved
symbol; it publishes no intermediate state. -/
def resolveOp (r : ModuleRegistry) (n : String) : Except MErr String × ModuleRegistry :=
  match findModule r n with
  | none => (.error .NotFound, r)
  | some e =>
    match resolveCheck r e.decl.reqs with
    | some s => (.error (.UnresolvedSymbol s), r)
    | none => (.ok n, r)

/-- Run a sequence of loads by name, failing if any load fails. -/
def runLoads : ModuleRegistry → List String → Option ModuleRegistry
  | r, [] => some r
  | r, n :: ns =>
    match loadOp r n with
    | (.ok _, r') => runLoads r' ns
    | (.error _, _) => none

/-- The registry obtained by declaring a set of modules, none loaded yet. -/
def initRegistry (decls : List ModDecl) : ModuleRegistry :=
  ⟨decls.map (fun d => ⟨d, .Unloaded, 0⟩)⟩

/-! ## The load-order resolver (topological sort) -/

/-- A declaration is loadable when every required symbol is exported by an
already-placed module. -/
def loadableIn (placed : List ModDecl) (d : ModDecl) : Bool :=
  d.reqs.all (fun s => placed.any (fun p => p.exports.contains s))

/-- Greedy construction of a load order: repeatedly pick a module whose
requirements are all satisfied by the modules placed so far. -/
def loadOrderAux : Nat → List ModDecl → List ModDecl → Option (List String)
  | _, _, [] => some []
  | 0, _, _ :: _ => none
  | fuel + 1, placed, d0 :: rest =>
    match (d0 :: rest).find? (loadableIn placed) with
    | none => none
    | some d =>
      (loadOrderAux fuel (placed ++ [d]) ((d0 :: rest).erase d)).map (d.name :: ·)

/-- The resolver's load order for a set of declarations. -/
def loadOrder (decls : List ModDecl) : Option (List String) :=
  loadOrderAux decls.length [] decls

/-! ## Device tree, driver registry, matcher and deferred-probe queue

Modelled from the spec: the Device Tree (§4.3), Driver Registry (§4.4),
Matcher (§4.5) and Deferred-Probe Queue (§4.6) are not present in `src/`
(only the generated `MODULE_ALIAS` match tables are), so they are modelled
here from the specification's words. -/

/-- A device node of the immutable device tree: its tree path and its ordered
compatible list, most specific first. -/
structure DeviceNode where
  path : String
  compatible : List String
deriving DecidableEq, Repr

/-- Result of a driver's probe capability for a node. -/
inductive ProbeRes where
  | ok
  | deferredR
  | fatal
deriving DecidableEq, Repr

/-- A registered driver: unique name, ordered match-pattern table (a pattern
with a trailing `*` matches by literal-prefix on the structured
`vendor,model` form, otherwise exactly), an optional explicit priority used
to mark intentional alternatives, and the data of its probe capability (the
node paths for which probing defers or fails fatally). -/
structure Driver where
  dname : String
  table : List String
  priority : Option Nat
  probeDefer : List String
  probeFatal : List String
deriving DecidableEq, Repr

/-- Is the first character list a prefix of the second? -/
def listPre : List Char → List Char → Bool
  | [], _ => true
  | _ :: _, [] => false
  | a :: as, b :: bs => a == b && listPre as bs

/-- Does the string end with the given suffix?  (Computed on the character
lists so that concrete instances evaluate.) -/
def strEndsWith (s t : String) : Bool :=
  listPre t.data.reverse s.data.reverse

/-- Is the first string a literal prefix of the second? -/
def strIsPrefix (p s : String) : Bool :=
  listPre p.data s.data

/-- The string without its final character. -/
def strDropLast (s : String) : String :=
  ⟨s.data.dropLast⟩

/-- Pattern match: a trailing `*` makes the pattern's literal part a prefix
requirement (the wildcard sits in the trailing model component); otherwise
the match is exact and case-sensitive. -/
def patMatch (p c : String) : Bool :=
  if strEndsWith p "*" then strIsPrefix (strDropLast p) c else p == c

/-- A driver matches a compatible string when any entry of its table does. -/
def driverMatches (d : Driver) (c : String) : Bool :=
  d.table.any (fun p => patMatch p c)

/-- The probe capability, as observed by the matcher. -/
def probeOf (d : Driver) (path : String) : ProbeRes :=
  if d.probeFatal.contains path then .fatal
  else if d.probeDefer.contains path then .deferredR
  else .ok

/-- A live binding: one device node handled by one driver. -/
structure Binding where
  nodePath : String
  driverName : String
deriving DecidableEq, Repr

/-- Reason a node sits in the deferred-probe queue. -/
inductive DeferReason where
  | NoDriver
  | ProbeDeferred
deriving DecidableEq, Repr

/-- A deferred-probe queue entry: the node, the reason, and the retry
generation counter. -/
structure DeferredEntry where
  nodePath : String
  reason : DeferReason
  attempts : Nat
deriving DecidableEq, Repr

/-- The device/driver state: the driver registry in registration order, the
immutable set of device nodes, the binding table, the deferred-probe queue,
the node/driver pairs for which probe failed fatally, and the configured
retry bound. -/
structure DrvState where
  drivers : List Driver
  nodes : List DeviceNode
  bindings : List Binding
  deferredQ : List DeferredEntry
  failedPairs : List (String × String)
  retryBound : Nat
deriving DecidableEq, Repr

/-- Errors of the driver-registry/binding side (spec §7 taxonomy). -/
inductive DErr where
  | DuplicateDriver
  | AmbiguousMatch
  | DriverBusy
  | DriverNotFound
  | NoSuchNode
  | AlreadyBound
  | NotBound
deriving DecidableEq, Repr

/-- Scan the compatible list in order (most specific first); for each entry,
scan the driver registry in registration order for a pattern match, skipping
drivers that already failed fatally for this node.  Returns the winning
driver together with the index of the compatible entry it matched. -/
def selectCandidate (ds : List Driver) (failed : List (String × String)) (path : String) :
    List String → Nat → Option (Driver × Nat)
  | [], _ => none
  | c :: rest, i =>
    match ds.find? (fun d => driverMatches d c && !(failed.contains (path, d.dname))) with
    | some d => some (d, i)
    | none => selectCandidate ds failed path rest (i + 1)

/-- Outcome of one matching attempt for a node. -/
inductive MatchOutcome where
  | bound (d : Driver)
  | deferredP (d : Driver)
  | noDriver
deriving DecidableEq, Repr

/-- One matching attempt for a node: select the most specific candidate, run
its probe; a fatal probe marks the node/driver pair failed (the node stays
eligible for other drivers) and the scan continues. -/
def matchAttempt (ds : List Driver) (path : String) (compat : List String) :
    Nat → List (String × String) → MatchOutcome × List (String × String)
  | 0, failed => (.noDriver, failed)
  | fuel + 1, failed =>
    match selectCandidate ds failed path compat 0 with
    | none => (.noDriver, failed)
    | some (d, _) =>
      match probeOf d path with
      | .ok => (.bound d, failed)
      | .deferredR => (.deferredP d, failed)
      | .fatal => matchAttempt ds path compat fuel ((path, d.dname) :: failed)

/-- The fuel that always suffices for a matching attempt: each fatal probe
permanently removes one driver from the node's candidate set. -/
def attemptFuel (ds : List Driver) : Nat :=
  ds.length + 1

/-- Look up a node's deferred-queue entry. -/
def lookupDeferred (q : List DeferredEntry) (path : String) : Option DeferredEntry :=
  q.find? (·.nodePath = path)

/-- Replace (or create) a node's deferred-queue entry. -/
def upsertDeferred (q : List DeferredEntry) (path : String) (reason : DeferReason) :
    List DeferredEntry :=
  match lookupDeferred q path with
  | some e => q.map (fun x => if x.nodePath = path then ⟨path, reason, e.attempts + 1⟩ else x)
  | none => q ++ [⟨path, reason, 1⟩]

/-- Remove a node's deferred-queue entry. -/
def removeDeferred (q : List DeferredEntry) (path : String) : List DeferredEntry :=
  q.filter (fun x => x.nodePath ≠ path)

/-- Is the node currently bound? -/
def isBound (st : DrvState) (path : String) : Bool :=
  st.bindings.any (·.nodePath = path)

/-- Run the matching attempt for an eligible node and commit its outcome:
success creates the binding and removes the node from the queue, failure
(re-)enters the queue with the observed reason. -/
def passNodeCore (st : DrvState) (n : DeviceNode) : DrvState :=
  match matchAttempt st.drivers n.path n.compatible (attemptFuel st.drivers) st.failedPairs with
  | (.bound d, f') =>
    { st with bindings := ⟨n.path, d.dname⟩ :: st.bindings,
              deferredQ := removeDeferred st.deferredQ n.path,
              failedPairs := f' }
  | (.deferredP _, f') =>
    { st with deferredQ := upsertDeferred st.deferredQ n.path .ProbeDeferred,
              failedPairs := f' }
  | (.noDriver, f') =>
    { st with deferredQ := upsertDeferred st.deferredQ n.path .NoDriver,
              failedPairs := f' }

/-- Process one device node during a matching pass: already-bound nodes are
skipped, nodes whose deferred entry exceeded the retry bound stay reported in
place (not silently dropped), and otherwise a matching attempt runs. -/
def passNode (st : DrvState) (n : DeviceNode) : DrvState :=
  if isBound st n.path then st
  else
    match lookupDeferred st.deferredQ n.path with
    | some e =>
      if st.retryBound ≤ e.attempts then st else passNodeCore st n
    | none => passNodeCore st n

/-- A matching pass walks every node of the device tree in order, retrying
unbound nodes and deferred entries. -/
def matchingPass (st : DrvState) : DrvState :=
  st.nodes.foldl passNode st

/-- Do two patterns overlap, i.e. is there a compatible string both match? -/
def overlapPat (p q : String) : Bool :=
  match strEndsWith p "*", strEndsWith q "*" with
  | true, true =>
    strIsPrefix (strDropLast p) (strDropLast q) || strIsPrefix (strDropLast q) (strDropLast p)
  | true, false => strIsPrefix (strDropLast p) q
  | false, true => strIsPrefix (strDropLast q) p
  | false, false => p == q

/-- Two drivers conflict when their tables hold overlapping patterns for the
same compatible string and they are not both explicitly prioritized. -/
def driversConflict (d1 d2 : Driver) : Bool :=
  d1.table.any (fun p => d2.table.any (fun q => overlapPat p q)) &&
    !(d1.priority.isSome && d2.priority.isSome)

/-- `register` adds a driver and immediately triggers a matching pass over
all currently unbound nodes and the deferred-probe queue; an ambiguous
registration fails with `AmbiguousMatch` and changes nothing. -/
def registerDriver (st : DrvState) (d : Driver) : Except DErr Unit × DrvState :=
  if st.drivers.any (·.dname = d.dname) then (.error .DuplicateDriver, st)
  else if st.drivers.any (fun d0 => driversConflict d0 d) then (.error .AmbiguousMatch, st)
  else (.ok (), matchingPass { st with drivers := st.drivers ++ [d] })

/-- `unregister` fails with `DriverBusy` while any binding references the
driver; callers must unbind first. -/
def unregisterDriver (st : DrvState) (name : String) : Except DErr Unit × DrvState :=
  if !(st.drivers.any (·.dname = name)) then (.error .DriverNotFound, st)
  else if st.bindings.any (·.driverName = name) then (.error .DriverBusy, st)
  else (.ok (), { st with drivers := st.drivers.filter (·.dname ≠ name) })

/-- Explicit unbind request: destroys the node's binding. -/
def unbindOp (st : DrvState) (path : String) : Except DErr Unit × DrvState :=
  if st.bindings.any (·.nodePath = path) then
    (.ok (), { st with bindings := st.bindings.filter (·.nodePath ≠ path) })
  else (.error .NotBound, st)

/-- Status a bind request reports when it does not create a binding; both are
recoverable through the deferred-probe queue, not hard errors. -/
inductive BindStatus where
  | bound
  | noDriver
  | probeDeferred
deriving DecidableEq, Repr

/-- Bind request for one node: runs the matcher on that node alone.  Hard
errors (unknown node, node already bound) change nothing; a recoverable
matching failure places the node in the deferred-probe queue. -/
def bindOp (st : DrvState) (path : String) : Except DErr BindStatus × DrvState :=
  match st.nodes.find? (·.path = path) with
  | none => (.error .NoSuchNode, st)
  | some n =>
    if isBound st path then (.error .AlreadyBound, st)
    else
      match matchAttempt st.drivers n.path n.compatible (attemptFuel st.drivers) st.failedPairs with
      | (.bound d, f') =>
        (.ok .bound,
         { st with bindings := ⟨n.path, d.dname⟩ :: st.bindings,
                   deferredQ := removeDeferred st.deferredQ n.path,
                   failedPairs := f' })
      | (.deferredP _, f') =>
        (.ok .probeDeferred,
         { st with deferredQ := upsertDeferred st.deferredQ n.path .ProbeDeferred,
                   failedPairs := f' })
      | (.noDriver, f') =>
        (.ok .noDriver,
         { st with deferredQ := upsertDeferred st.deferredQ n.path .NoDriver,
                   failedPairs := f' })

/-- The initial device/driver state: the immutable device tree, no drivers,
no bindings, an empty queue. -/
def initDrvState (nodes : List DeviceNode) (retryBound : Nat) : DrvState :=
  ⟨[], nodes, [], [], [], retryBound⟩

/-- States of the device/driver side reachable by any sequence of operations
(driver registration and unregistration, matching passes / deferred retries,
bind and unbind requests) from an initial state whose node paths are
distinct. -/
inductive DReach : DrvState → Prop where
  | init (nodes : List DeviceNode) (retryBound : Nat)
      (hnodup : (nodes.map (·.path)).Nodup) :
      DReach (initDrvState nodes retryBound)
  | register (st : DrvState) (d : Driver) (h : DReach st) :
      DReach (registerDriver st d).2
  | unregister (st : DrvState) (name : String) (h : DReach st) :
      DReach (unregisterDriver st name).2
  | unbind (st : DrvState) (path : String) (h : DReach st) :
      DReach (unbindOp st path).2
  | bindReq (st : DrvState) (path : String) (h : DReach st) :
      DReach (bindOp st path).2
  | pass (st : DrvState) (h : DReach st) :
      DReach (matchingPass st)

/-- States of the module registry reachable by any sequence of operations
(declare, load, resolve, unload, release) from the empty registry. -/
inductive MReach : ModuleRegistry → Prop where
  | init : MReach ⟨[]⟩
  | declare (r : ModuleRegistry) (d : ModDecl) (h : MReach r) : MReach (declareOp r d).2
  | load (r : ModuleRegistry) (n : String) (h : MReach r) : MReach (loadOp r n).2
  | unload (r : ModuleRegistry) (n : String) (h : MReach r) : MReach (unloadOp r n).2
  | release (r : ModuleRegistry) (n : String) (h : MReach r) : MReach (releaseOp r n).2
  | resolve (r : ModuleRegistry) (n : String) (h : MReach r) : MReach (resolveOp r n).2

/-! ## The match tables present in the source

These three alias tables are embedded verbatim from the repository's
generated module metadata. -/

/-- The `MODULE_ALIAS` match table of
`drivers/phy/qualcomm/phy-qcom-qmp-combo.mod.c`. -/
def qmpComboAliases : List String :=
  [ "of:N*T*Cqcom,sc7180-qmp-usb3-dp-phy"
  , "of:N*T*Cqcom,sc7180-qmp-usb3-dp-phyC*"
  , "of:N*T*Cqcom,sc8180x-qmp-usb3-dp-phy"
  , "of:N*T*Cqcom,sc8180x-qmp-usb3-dp-phyC*"
  , "of:N*T*Cqcom,sc8280xp-qmp-usb43dp-phy"
  , "of:N*T*Cqcom,sc8280xp-qmp-usb43dp-phyC*"
  , "of:N*T*Cqcom,sdm845-qmp-usb3-dp-phy"
  , "of:N*T*Cqcom,sdm845-qmp-usb3-dp-phyC*"
  , "of:N*T*Cqcom,sm6350-qmp-usb3-dp-phy"
  , "of:N*T*Cqcom,sm6350-qmp-usb3-dp-phyC*"
  , "of:N*T*Cqcom,sm8250-qmp-usb3-dp-phy"
  , "of:N*T*Cqcom,sm8250-qmp-usb3-dp-phyC*"
  , "of:N*T*Cqcom,sm8350-qmp-usb3-dp-phy"
  , "of:N*T*Cqcom,sm8350-qmp-usb3-dp-phyC*"
  , "of:N*T*Cqcom,sm8450-qmp-usb3-dp-phy"
  , "of:N*T*Cqcom,sm8450-qmp-usb3-dp-phyC*"
  , "of:N*T*Cqcom,sm8550-qmp-usb3-dp-phy"
  , "of:N*T*Cqcom,sm8550-qmp-usb3-dp-phyC*" ]

/-- The `MODULE_ALIAS` match table of
`drivers/net/wireless/mediatek/mt76/mt7921/mt7921e.mod.c`. -/
def mt7921eAliases : List String :=
  [ "pci:v000014C3d00007961sv*sd*bc*sc*i*"
  , "pci:v000014C3d00007922sv*sd*bc*sc*i*"
  , "pci:v000014C3d00000608sv*sd*bc*sc*i*"
  , "pci:v000014C3d00000616sv*sd*bc*sc*i*" ]

/-- The `MODULE_ALIAS` match table of the MediaTek SCP remoteproc module
(`src/unnamed/part_001`). -/
def scpAliases : List String :=
  [ "of:N*T*Cmediatek,mt8183-scp"
  , "of:N*T*Cmediatek,mt8183-scpC*"
  , "of:N*T*Cmediatek,mt8186-scp"
  , "of:N*T*Cmediatek,mt8186-scpC*"
  , "of:N*T*Cmediatek,mt8188-scp"
  , "of:N*T*Cmediatek,mt8188-scpC*"
  , "of:N*T*Cmediatek,mt8192-scp"
  , "of:N*T*Cmediatek,mt8192-scpC*"
  , "of:N*T*Cmediatek,mt8195-scp"
  , "of:N*T*Cmediatek,mt8195-scpC*" ]

/-- All match tables present in the code. -/
def allAliasTables : List (List String) :=
  [qmpComboAliases, mt7921eAliases, scpAliases]

/-- A table is pair-structured when it decomposes into consecutive pairs: an
exact pattern (no trailing wildcard) immediately followed by the same
identifier with the trailing wildcard suffix `C*`. -/
def pairStructured : List String → Bool
  | [] => true
  | [_] => false
  | a :: b :: rest =>
    !(strEndsWith a "*") && (b == a ++ "C*") && pairStructured rest

/-! ## Theorems -/

/-- A string extended with the wildcard suffix `C*` ends with the wildcard. -/
theorem strEndsWith_append_CStar (a : String) : strEndsWith (a ++ "C*") "*" = true := by
  obtain ⟨la⟩ := a
  show listPre ['*'] ((la ++ ['C', '*']).reverse) = true
  rw [List.reverse_append]
  simp [listPre]

/-- Helper: in a pair-structured table, every exact (non-wildcard) entry is
accompanied by the same identifier with the trailing wildcard suffix. -/
theorem pairStructured_companion (l : List String) (hl : pairStructured l = true) :
    ∀ a ∈ l, strEndsWith a "*" = false → (a ++ "C*") ∈ l := by
  induction l using pairStructured.induct with
  | case1 => intro a ha _; simp at ha
  | case2 x => simp [pairStructured] at hl
  | case3 a b rest ih =>
    simp only [pairStructured, Bool.and_eq_true, Bool.not_eq_true', beq_iff_eq] at hl
    obtain ⟨⟨ha, hb⟩, hrest⟩ := hl
    intro x hx hxw
    rcases List.mem_cons.mp hx with hxa | hx2
    · subst hxa; subst hb
      exact List.mem_cons_of_mem _ (List.mem_cons_self _ _)
    · rcases List.mem_cons.mp hx2 with hxb | hxr
      · subst hxb; rw [hb, strEndsWith_append_CStar] at hxw; cases hxw
      · exact List.mem_cons_of_mem _ (List.mem_cons_of_mem _ (ih hrest x hxr hxw))

/-- C10 (counterexample): the claim is false as stated: the PCI match table of
`mt7921e.mod.c` is one of the match tables present in the code, and it is not
made of exact/wildcard pattern pairs — every one of its entries carries
wildcards and no entry is followed by its own `C*`-suffixed form. -/
theorem mt7921e_table_not_pair_structured :
    mt7921eAliases ∈ allAliasTables ∧ pairStructured mt7921eAliases = false := by
  constructor
  · simp [allAliasTables, mt7921eAliases]
  · rfl

/-- C10 (amended): in every device-tree (`of:`) match table present in the
code, each supported compatible identifier appears as an exact pattern
immediately followed by the same identifier with the trailing wildcard suffix
`C*`; consequently every exact entry of those tables has its wildcard-suffixed
companion in the table. -/
theorem of_tables_pair_structured :
    pairStructured qmpComboAliases = true ∧ pairStructured scpAliases = true ∧
      (∀ a ∈ qmpComboAliases, strEndsWith a "*" = false → (a ++ "C*") ∈ qmpComboAliases) ∧
      (∀ a ∈ scpAliases, strEndsWith a "*" = false → (a ++ "C*") ∈ scpAliases) := by
  refine ⟨rfl, rfl, ?_, ?_⟩
  · exact pairStructured_companion _ rfl
  · exact pairStructured_companion _ rfl

/-- C4: an unload request for a module whose reference count is positive
always fails with `ModuleBusy`, and the registry (its lifecycle states
included) is exactly as it was before the request. -/
theorem unload_busy_of_refcount_pos (r : ModuleRegistry) (n : String) (e : ModEntry)
    (h1 : findModule r n = some e) (h2 : 0 < e.refcount) :
    unloadOp r n = (.error .ModuleBusy, r) := by
  unfold unloadOp
  rw [h1]
  have : (e.refcount > 0 || liveDependentExists r e) = true := by
    simp [Nat.lt_iff_add_one_le] at h2 ⊢
    omega
  simp [this]

/-- C4 witness: a concrete one-module registry with a positive refcount. -/
theorem unload_busy_of_refcount_pos_witness :
    unloadOp ⟨[⟨⟨"a", ["s1"], []⟩, .Live, 1⟩]⟩ "a" = (.error .ModuleBusy, ⟨[⟨⟨"a", ["s1"], []⟩, .Live, 1⟩]⟩) :=
  unload_busy_of_refcount_pos _ "a" ⟨⟨"a", ["s1"], []⟩, .Live, 1⟩ rfl (by decide)

/-- C5: load is idempotent: a load request for a module already `Loading` or
`Live` returns the existing module handle and leaves the registry — its
declared symbol entries included — exactly unchanged, so loading is not
re-run and no exported symbol entry is duplicated. -/
theorem load_idempotent (r : ModuleRegistry) (n : String) (e : ModEntry)
    (h1 : findModule r n = some e) (h2 : e.state = .Loading ∨ e.state = .Live) :
    loadOp r n = (.ok n, r) := by
  rcases h2 with h | h <;> simp [loadOp, h1, h]

/-- C5 witness: a concrete registry with a live module. -/
theorem load_idempotent_witness :
    loadOp ⟨[⟨⟨"a", ["s1"], []⟩, .Live, 0⟩]⟩ "a" = (.ok "a", ⟨[⟨⟨"a", ["s1"], []⟩, .Live, 0⟩]⟩) :=
  load_idempotent _ "a" ⟨⟨"a", ["s1"], []⟩, .Live, 0⟩ rfl (Or.inr rfl)

/-- C8: every mutating operation of the core — declare, load, unload,
resolve, release on the module registry; register, unregister, bind, unbind
on the driver/binding side — is atomic with respect to its own registry: if
the operation returns an error, the registry it targets is exactly as it was
before the call (so no failure can leave a registry invariant violated). -/
theorem ops_atomic :
    (∀ r d err, (declareOp r d).1 = .error err → (declareOp r d).2 = r) ∧
    (∀ r n err, (loadOp r n).1 = .error err → (loadOp r n).2 = r) ∧
    (∀ r n err, (unloadOp r n).1 = .error err → (unloadOp r n).2 = r) ∧
    (∀ r n err, (resolveOp r n).1 = .error err → (resolveOp r n).2 = r) ∧
    (∀ r n err, (releaseOp r n).1 = .error err → (releaseOp r n).2 = r) ∧
    (∀ st d err, (registerDriver st d).1 = .error err → (registerDriver st d).2 = st) ∧
    (∀ st nm err, (unregisterDriver st nm).1 = .error err → (unregisterDriver st nm).2 = st) ∧
    (∀ st p err, (bindOp st p).1 = .error err → (bindOp st p).2 = st) ∧
    (∀ st p err, (unbindOp st p).1 = .error err → (unbindOp st p).2 = st) := by
  refine ⟨?_, ?_, ?_, ?_, ?_, ?_, ?_, ?_, ?_⟩
  · intro r d err h
    rcases hE : declareOp r d with ⟨res, r2⟩
    rw [hE] at h; simp only at h ⊢
    unfold declareOp at hE
    repeat' split at hE
    all_goals simp_all
  · intro r n err h
    rcases hE : loadOp r n with ⟨res, r2⟩
    rw [hE] at h; simp only at h ⊢
    unfold loadOp at hE
    repeat' split at hE
    all_goals simp_all
  · intro r n err h
    rcases hE : unloadOp r n with ⟨res, r2⟩
    rw [hE] at h; simp only at h ⊢
    unfold unloadOp at hE
    repeat' split at hE
    all_goals simp_all
  · intro r n err h
    rcases hE : resolveOp r n with ⟨res, r2⟩
    rw [hE] at h; simp only at h ⊢
    unfold resolveOp at hE
    repeat' split at hE
    all_goals simp_all
  · intro r n err h
    rcases hE : releaseOp r n with ⟨res, r2⟩
    rw [hE] at h; simp only at h ⊢
    unfold releaseOp at hE
    repeat' split at hE
    all_goals simp_all
  · intro st d err h
    rcases hE : registerDriver st d with ⟨res, st2⟩
    rw [hE] at h; simp only at h ⊢
    unfold registerDriver at hE
    repeat' split at hE
    all_goals simp_all
  · intro st nm err h
    rcases hE : unregisterDriver st nm with ⟨res, st2⟩
    rw [hE] at h; simp only at h ⊢
    unfold unregisterDriver at hE
    repeat' split at hE
    all_goals simp_all
  · intro st p err h
    rcases hE : bindOp st p with ⟨res, st2⟩
    rw [hE] at h; simp only at h ⊢
    unfold bindOp at hE
    repeat' split at hE
    all_goals simp_all
  · intro st p err h
    rcases hE : unbindOp st p with ⟨res, st2⟩
    rw [hE] at h; simp only at h ⊢
    unfold unbindOp at hE
    repeat' split at hE
    all_goals simp_all

/-- C8 witness: each operation, run on a concrete input that makes it fail,
leaves its registry untouched. -/
theorem ops_atomic_witness :
    (declareOp ⟨[⟨⟨"a", [], []⟩, .Unloaded, 0⟩]⟩ ⟨"a", [], []⟩).2 = ⟨[⟨⟨"a", [], []⟩, .Unloaded, 0⟩]⟩ ∧
    (loadOp ⟨[]⟩ "x").2 = ⟨[]⟩ ∧
    (unloadOp ⟨[]⟩ "x").2 = ⟨[]⟩ ∧
    (resolveOp ⟨[]⟩ "x").2 = ⟨[]⟩ ∧
    (releaseOp ⟨[]⟩ "x").2 = ⟨[]⟩ ∧
    (registerDriver ⟨[⟨"d", [], none, [], []⟩], [], [], [], [], 3⟩ ⟨"d", [], none, [], []⟩).2 =
      ⟨[⟨"d", [], none, [], []⟩], [], [], [], [], 3⟩ ∧
    (unregisterDriver (initDrvState [] 3) "d").2 = initDrvState [] 3 ∧
    (bindOp (initDrvState [] 3) "p").2 = initDrvState [] 3 ∧
    (unbindOp (initDrvState [] 3) "p").2 = initDrvState [] 3 :=
  ⟨ops_atomic.1 _ _ .DuplicateModule rfl,
   ops_atomic.2.1 _ _ .NotFound rfl,
   ops_atomic.2.2.1 _ _ .NotFound rfl,
   ops_atomic.2.2.2.1 _ _ .NotFound rfl,
   ops_atomic.2.2.2.2.1 _ _ .NotFound rfl,
   ops_atomic.2.2.2.2.2.1 _ _ .DuplicateDriver rfl,
   ops_atomic.2.2.2.2.2.2.1 _ _ .DriverNotFound rfl,
   ops_atomic.2.2.2.2.2.2.2.1 _ _ .NoSuchNode rfl,
   ops_atomic.2.2.2.2.2.2.2.2 _ _ .NotBound rfl⟩

/-! ## Path toolkit for the requires-edge graph -/

theorem edgeB_names {g : List ModDecl} {a b : String} (h : edgeB g a b = true) :
    a ∈ gNames g ∧ b ∈ gNames g := by
  unfold edgeB at h
  rcases hfa : g.find? (·.name = a) with _ | da
  · rw [hfa] at h; simp at h
  · rcases hfb : g.find? (·.name = b) with _ | db
    · rw [hfa, hfb] at h; simp at h
    · have ma := List.mem_of_find?_eq_some hfa
      have mb := List.mem_of_find?_eq_some hfb
      have pa := List.find?_some hfa
      have pb := List.find?_some hfb
      simp only [decide_eq_true_eq] at pa pb
      constructor
      · unfold gNames; rw [← pa]; exact List.mem_map_of_mem _ ma
      · unfold gNames; rw [← pb]; exact List.mem_map_of_mem _ mb

theorem pathOk_tail {g : List ModDecl} {a : String} {rest : List String}
    (h : pathOk g (a :: rest) = true) : pathOk g rest = true := by
  cases rest with
  | nil => rfl
  | cons b r => simp only [pathOk, Bool.and_eq_true] at h; exact h.2

theorem pathOk_head_edge {g : List ModDecl} {a b : String} {r : List String}
    (h : pathOk g (a :: b :: r) = true) : edgeB g a b = true := by
  simp only [pathOk, Bool.and_eq_true] at h; exact h.1

theorem pathOk_cons_of {g : List ModDecl} {a b : String} {r : List String}
    (hab : edgeB g a b = true) (h : pathOk g (b :: r) = true) :
    pathOk g (a :: b :: r) = true := by
  simp only [pathOk, Bool.and_eq_true]; exact ⟨hab, h⟩

theorem pathOk_split {g : List ModDecl} :
    ∀ (l1 : List String) (b : String) (l2 : List String),
      pathOk g (l1 ++ b :: l2) = true →
      pathOk g (l1 ++ [b]) = true ∧ pathOk g (b :: l2) = true := by
  intro l1
  induction l1 with
  | nil => intro b l2 h; exact ⟨rfl, h⟩
  | cons a l1' ih =>
    intro b l2 h
    rw [List.cons_append] at h
    cases hl : l1' with
    | nil =>
      subst hl
      simp only [List.nil_append] at h
      exact ⟨pathOk_cons_of (pathOk_head_edge h) rfl, pathOk_tail h⟩
    | cons c l1'' =>
      subst hl
      have htail := pathOk_tail h
      have hedge : edgeB g a c = true := by
        rw [List.cons_append] at h; exact pathOk_head_edge h
      obtain ⟨h1, h2⟩ := ih b l2 htail
      refine ⟨?_, h2⟩
      rw [List.cons_append]
      rw [List.cons_append] at h1
      exact pathOk_cons_of hedge h1

theorem pathOk_join {g : List ModDecl} :
    ∀ (l1 : List String) (b : String) (l2 : List String),
      pathOk g (l1 ++ [b]) = true → pathOk g (b :: l2) = true →
      pathOk g (l1 ++ b :: l2) = true := by
  intro l1
  induction l1 with
  | nil => intro b l2 _ h2; exact h2
  | cons a l1' ih =>
    intro b l2 h1 h2
    rw [List.cons_append] at h1 ⊢
    cases hl : l1' with
    | nil =>
      subst hl
      simp only [List.nil_append] at h1 ⊢
      exact pathOk_cons_of (pathOk_head_edge h1) h2
    | cons c l1'' =>
      subst hl
      have hedge : edgeB g a c = true := by
        rw [List.cons_append] at h1; exact pathOk_head_edge h1
      have := ih b l2 (pathOk_tail h1) h2
      rw [List.cons_append] at this ⊢
      exact pathOk_cons_of hedge this

theorem pathOk_mem_names {g : List ModDecl} :
    ∀ (p : List String), pathOk g p = true → 2 ≤ p.length →
      ∀ x ∈ p, x ∈ gNames g := by
  intro p
  induction p with
  | nil => intro _ hlen; simp at hlen
  | cons a t ih =>
    intro hp hlen x hx
    cases t with
    | nil => simp at hlen
    | cons b r =>
      have hedge := pathOk_head_edge hp
      have hab := edgeB_names hedge
      rcases List.mem_cons.mp hx with hxa | hxt
      · rw [hxa]; exact hab.1
      · cases r with
        | nil =>
          rcases List.mem_cons.mp hxt with hxb | hxn
          · rw [hxb]; exact hab.2
          · simp at hxn
        | cons c r' =>
          exact ih (pathOk_tail hp) (by simp) x hxt

theorem exists_dup_split {α : Type} [DecidableEq α] :
    ∀ (l : List α), ¬l.Nodup → ∃ (l1 : List α) (x : α) (l2 l3 : List α),
      l = l1 ++ x :: l2 ++ x :: l3 := by
  intro l
  induction l with
  | nil => intro h; exact absurd List.nodup_nil h
  | cons a t ih =>
    intro h
    by_cases ha : a ∈ t
    · obtain ⟨s, u, hsu⟩ := List.append_of_mem ha
      exact ⟨[], a, s, u, by rw [hsu]; rfl⟩
    · have : ¬t.Nodup := by
        intro hn
        exact h (List.nodup_cons.mpr ⟨ha, hn⟩)
      obtain ⟨l1, x, l2, l3, hsplit⟩ := ih this
      exact ⟨a :: l1, x, l2, l3, by rw [hsplit]; rfl⟩

theorem cycle_rotate {g : List ModDecl} {p : List String} {m : String}
    (hc : isCycle g p = true) (hm : m ∈ p) :
    ∃ q, pathOk g q = true ∧ q.head? = some m ∧ q.getLast? = some m ∧
      2 ≤ q.length ∧ ∀ y ∈ p, y ∈ q := by
  unfold isCycle at hc
  simp only [Bool.and_eq_true, decide_eq_true_eq] at hc
  obtain ⟨⟨hlen, hpath⟩, hends⟩ := hc
  cases p with
  | nil => simp at hlen
  | cons x t =>
    cases t with
    | nil => simp at hlen
    | cons b r =>
      have hlast : (x :: b :: r).getLast? = some x := by
        rw [← hends]; rfl
      have hlast2 : (b :: r).getLast? = some x := by
        rw [← List.getLast?_cons_cons]; exact hlast
      have hbreak : (b :: r).dropLast ++ [x] = b :: r :=
        List.dropLast_append_getLast? x hlast2
      obtain ⟨mid, hbreak⟩ : ∃ mid, mid ++ [x] = b :: r := ⟨(b :: r).dropLast, hbreak⟩
      have hp : x :: b :: r = x :: mid ++ [x] := by
        rw [List.cons_append, hbreak]
      rcases List.mem_cons.mp hm with hmx | hmt
      · refine ⟨x :: b :: r, hpath, by rw [hmx]; rfl, by rw [hmx]; exact hlast, hlen, ?_⟩
        intro y hy; exact hy
      · have hmt' : m ∈ x :: mid ++ [x] := by rw [← hp]; exact List.mem_cons_of_mem _ hmt
        by_cases hmx : m = x
        · refine ⟨x :: b :: r, hpath, by rw [hmx]; rfl, by rw [hmx]; exact hlast, hlen, ?_⟩
          intro y hy; exact hy
        · have hmmid : m ∈ mid := by
            rcases List.mem_cons.mp hmt' with h1 | h2
            · exact absurd h1 hmx
            · rcases List.mem_append.mp h2 with h3 | h4
              · exact h3
              · simp at h4; exact absurd h4 hmx
          obtain ⟨l1, l2, hl⟩ := List.append_of_mem hmmid
          have hpfull : pathOk g ((x :: l1) ++ m :: (l2 ++ [x])) = true := by
            have : x :: b :: r = (x :: l1) ++ m :: (l2 ++ [x]) := by
              rw [hp, hl]; simp
            rw [← this]; exact hpath
          obtain ⟨hseg1, hseg2⟩ := pathOk_split (x :: l1) m (l2 ++ [x]) hpfull
          have hseg2' : pathOk g ((m :: l2) ++ [x]) = true := by
            rw [List.cons_append]; exact hseg2
          have hseg1' : pathOk g (x :: (l1 ++ [m])) = true := by
            rw [← List.cons_append]; exact hseg1
          have hjoin := pathOk_join (m :: l2) x (l1 ++ [m]) hseg2' hseg1'
          refine ⟨(m :: l2) ++ x :: (l1 ++ [m]), hjoin, rfl, ?_, ?_, ?_⟩
          · have : (m :: l2) ++ x :: (l1 ++ [m]) = ((m :: l2) ++ x :: l1) ++ [m] := by simp
            rw [this, List.getLast?_concat]
          · simp only [List.cons_append, List.length_cons, List.length_append]
            omega
          · intro y hy
            have hy' : y ∈ x :: mid ++ [x] := by rw [← hp]; exact hy
            rcases List.mem_cons.mp hy' with h1 | h2
            · rw [h1]; simp
            · rcases List.mem_append.mp h2 with h3 | h4
              · rw [hl] at h3
                rcases List.mem_append.mp h3 with h5 | h6
                · simp [h5]
                · rcases List.mem_cons.mp h6 with h7 | h8
                  · rw [h7]; simp
                  · simp [h8]
              · simp at h4; rw [h4]; simp

theorem cycle_shorten {g : List ModDecl} {m : String} :
    ∀ (n : Nat) (q : List String), q.length ≤ n → pathOk g q = true →
      q.head? = some m → q.getLast? = some m → 2 ≤ q.length →
      ∃ q', pathOk g q' = true ∧ q'.head? = some m ∧ q'.getLast? = some m ∧
        2 ≤ q'.length ∧ q'.length ≤ g.length + 1 := by
  intro n
  induction n with
  | zero =>
    intro q hq _ _ _ hlen
    have : q.length = 0 := Nat.le_zero.mp hq
    omega
  | succ n ih =>
    intro q hq hpath hhead hlast hlen
    by_cases hshort : q.length ≤ g.length + 1
    · exact ⟨q, hpath, hhead, hlast, hlen, hshort⟩
    · cases q with
      | nil => simp at hhead
      | cons a t =>
        have ham : a = m := by simpa using hhead
        subst ham
        have hsub : ∀ x ∈ t, x ∈ gNames g := fun x hx =>
          pathOk_mem_names _ hpath hlen x (List.mem_cons_of_mem _ hx)
        have hgl : (gNames g).length = g.length := List.length_map _ _
        have hnd : ¬t.Nodup := by
          intro hnd
          have := List.Subperm.length_le (List.Nodup.subperm hnd hsub)
          simp only [List.length_cons] at hshort
          omega
        obtain ⟨l1, x, l2, l3, hsplit⟩ := exists_dup_split t hnd
        have hq1 : pathOk g ((a :: l1) ++ x :: (l2 ++ x :: l3)) = true := by
          have he : (a :: l1) ++ x :: (l2 ++ x :: l3) = a :: t := by
            rw [hsplit]; simp
          rw [he]; exact hpath
        obtain ⟨hA, hB⟩ := pathOk_split (a :: l1) x (l2 ++ x :: l3) hq1
        have hB' : pathOk g ((x :: l2) ++ x :: l3) = true := by
          rw [List.cons_append]; exact hB
        obtain ⟨_, hC⟩ := pathOk_split (x :: l2) x l3 hB'
        have hq' : pathOk g ((a :: l1) ++ x :: l3) = true := pathOk_join (a :: l1) x l3 hA hC
        have hlastq' : ((a :: l1) ++ x :: l3).getLast? = some a := by
          rcases List.eq_nil_or_concat l3 with h3 | ⟨l4, y, h3⟩
          · subst h3
            have hform : a :: t = ((a :: l1) ++ (x :: l2)) ++ [x] := by
              rw [hsplit]; simp
            rw [hform, List.getLast?_concat] at hlast
            have hx : x = a := by simpa using hlast
            rw [hx]
            exact List.getLast?_concat _
          · rw [List.concat_eq_append] at h3
            subst h3
            have hform : a :: t = ((a :: l1) ++ (x :: l2) ++ (x :: l4)) ++ [y] := by
              rw [hsplit]; simp
            rw [hform, List.getLast?_concat] at hlast
            have hy : y = a := by simpa using hlast
            have hform2 : (a :: l1) ++ x :: (l4 ++ [y]) = ((a :: l1) ++ x :: l4) ++ [y] := by
              simp
            rw [hform2, List.getLast?_concat, hy]
        have hlen' : ((a :: l1) ++ x :: l3).length ≤ n := by
          have h1 : (a :: t).length ≤ n + 1 := hq
          rw [hsplit] at h1
          simp only [List.length_cons, List.length_append] at h1 ⊢
          omega
        have hlen2 : 2 ≤ ((a :: l1) ++ x :: l3).length := by
          simp only [List.length_append, List.length_cons]
          omega
        exact ih ((a :: l1) ++ x :: l3) hlen' hq' rfl hlastq' hlen2

theorem searchPath_sound {g : List ModDecl} :
    ∀ (fuel : Nat) (cur target : String) (p : List String),
      searchPath g fuel cur target = some p →
      pathOk g p = true ∧ p.head? = some cur ∧ p.getLast? = some target ∧ 2 ≤ p.length := by
  intro fuel
  induction fuel with
  | zero => intro cur target p h; simp [searchPath] at h
  | succ fuel ih =>
    intro cur target p h
    unfold searchPath at h
    by_cases hmem : target ∈ succsOf g cur
    · rw [if_pos hmem] at h
      have hp : p = [cur, target] := by
        simpa using h.symm
      subst hp
      have hedge : edgeB g cur target = true := (List.mem_filter.mp hmem).2
      refine ⟨?_, rfl, rfl, by simp⟩
      simp [pathOk, hedge]
    · rw [if_neg hmem] at h
      obtain ⟨nxt, hnxt, hfn⟩ := List.exists_of_findSome?_eq_some h
      obtain ⟨q, hq, hpq⟩ : ∃ q, searchPath g fuel nxt target = some q ∧ p = cur :: q := by
        rcases hsp : searchPath g fuel nxt target with _ | q
        · rw [hsp] at hfn; simp at hfn
        · rw [hsp] at hfn; simp at hfn; exact ⟨q, rfl, hfn.symm⟩
      subst hpq
      obtain ⟨hq1, hq2, hq3, hq4⟩ := ih nxt target q hq
      have hedge : edgeB g cur nxt = true := (List.mem_filter.mp hnxt).2
      cases q with
      | nil => simp at hq2
      | cons b r =>
        have hb : b = nxt := by simpa using hq2
        subst hb
        refine ⟨pathOk_cons_of hedge hq1, rfl, ?_, by simp⟩
        rw [← hq3]; simp

theorem findSome?_isSome_of_mem {α β : Type} {l : List α} {f : α → Option β} {a : α}
    (ha : a ∈ l) (hf : (f a).isSome = true) : (l.findSome? f).isSome = true := by
  induction l with
  | nil => simp at ha
  | cons x t ih =>
    rcases hx : f x with _ | b
    · rw [List.findSome?_cons_of_isNone _ (by simp [hx])]
      rcases List.mem_cons.mp ha with h1 | h2
      · subst h1; rw [hx] at hf; simp at hf
      · exact ih h2
    · rw [List.findSome?_cons_of_isSome _ (by simp [hx])]
      simp [hx]

theorem searchPath_complete {g : List ModDecl} :
    ∀ (fuel : Nat) (p : List String) (cur target : String),
      pathOk g p = true → p.head? = some cur → p.getLast? = some target →
      2 ≤ p.length → p.length ≤ fuel + 1 →
      (searchPath g fuel cur target).isSome = true := by
  intro fuel
  induction fuel with
  | zero =>
    intro p cur target _ _ _ hlen hbound
    omega
  | succ fuel ih =>
    intro p cur target hpath hhead hlast hlen hbound
    unfold searchPath
    by_cases hmem : target ∈ succsOf g cur
    · rw [if_pos hmem]; rfl
    · rw [if_neg hmem]
      cases p with
      | nil => simp at hhead
      | cons a t =>
        have ha : a = cur := by simpa using hhead
        subst ha
        cases t with
        | nil => simp at hlen
        | cons b t' =>
          have hedge : edgeB g a b = true := pathOk_head_edge hpath
          have hbnames : b ∈ gNames g := (edgeB_names hedge).2
          have hbsucc : b ∈ succsOf g a := List.mem_filter.mpr ⟨hbnames, hedge⟩
          cases t' with
          | nil =>
            have hb : b = target := by simpa using hlast
            subst hb
            exact absurd hbsucc hmem
          | cons c t'' =>
            have hsub : (searchPath g fuel b target).isSome = true := by
              refine ih (b :: c :: t'') b target (pathOk_tail hpath) rfl ?_ (by simp) ?_
              · rw [← hlast]; simp
              · simp only [List.length_cons] at hbound ⊢; omega
            have hmap : ((searchPath g fuel b target).map (a :: ·)).isSome = true := by
              rcases hs : searchPath g fuel b target with _ | q
              · rw [hs] at hsub; simp at hsub
              · simp
            exact findSome?_isSome_of_mem hbsucc hmap

theorem findCycleFrom_sound {g : List ModDecl} {m : String} {p : List String}
    (h : findCycleFrom g m = some p) :
    isCycle g p = true ∧ p.head? = some m := by
  obtain ⟨h1, h2, h3, h4⟩ := searchPath_sound (g.length + 1) m m p h
  refine ⟨?_, h2⟩
  unfold isCycle
  simp only [Bool.and_eq_true, decide_eq_true_eq]
  exact ⟨⟨h4, h1⟩, by rw [h2, h3]⟩

theorem findCycleFrom_complete {g : List ModDecl} {p : List String} {m : String}
    (hc : isCycle g p = true) (hm : m ∈ p) :
    (findCycleFrom g m).isSome = true := by
  obtain ⟨q, hq, hh, hl, h2, _⟩ := cycle_rotate hc hm
  obtain ⟨q', hq', hh', hl', h2', hbound⟩ := cycle_shorten q.length q le_rfl hq hh hl h2
  unfold findCycleFrom
  exact searchPath_complete (g.length + 1) q' m m hq' hh' hl' h2' (by omega)

theorem noCycle_of_checker {g : List ModDecl}
    (h : ∀ m ∈ gNames g, findCycleFrom g m = none) :
    ∀ p, isCycle g p = false := by
  intro p
  cases hb : isCycle g p with
  | false => rfl
  | true =>
    exfalso
    cases p with
    | nil => unfold isCycle at hb; simp at hb
    | cons a t =>
      have hparts : 2 ≤ (a :: t).length ∧ pathOk g (a :: t) = true := by
        unfold isCycle at hb
        simp only [Bool.and_eq_true, decide_eq_true_eq] at hb
        exact ⟨hb.1.1, hb.1.2⟩
      have ha : a ∈ gNames g :=
        pathOk_mem_names _ hparts.2 hparts.1 a (List.mem_cons_self _ _)
      have hcomp := findCycleFrom_complete hb (List.mem_cons_self a t)
      rw [h a ha] at hcomp
      simp at hcomp

/-! ## Module-registry invariants -/

/-- Module names are unique in the registry. -/
def nodupNames (r : ModuleRegistry) : Prop :=
  (r.mods.map (·.decl.name)).Nodup

/-- Declared exported-symbol sets are pairwise disjoint: a symbol has at most
one owner (spec §3, Symbol). -/
def disjointExports (r : ModuleRegistry) : Prop :=
  List.Pairwise (fun a b => ∀ s ∈ a.decl.exports, s ∉ b.decl.exports) r.mods

/-- Every required symbol of a live module is exported by a live module. -/
def liveClosure (r : ModuleRegistry) : Prop :=
  ∀ e ∈ r.mods, e.state = .Live →
    ∀ s ∈ e.decl.reqs, ∃ o ∈ r.mods, o.state = .Live ∧ s ∈ o.decl.exports

/-- No module that participates in a requires-cycle is live. -/
def cycleFree (r : ModuleRegistry) : Prop :=
  ∀ p, isCycle (declsOf r) p = true →
    ∀ m ∈ p, ∀ e ∈ r.mods, e.decl.name = m → e.state ≠ .Live

/-- The registry invariant bundle. -/
def MInv (r : ModuleRegistry) : Prop :=
  nodupNames r ∧ disjointExports r ∧ liveClosure r ∧ cycleFree r

theorem contains_iff_mem {s : String} {l : List String} :
    l.contains s = true ↔ s ∈ l := by
  show l.elem s = true ↔ s ∈ l
  exact List.elem_iff

theorem find?_key_unique {α : Type} (key : α → String) :
    ∀ (l : List α), ((l.map key).Nodup) → ∀ x ∈ l,
      l.find? (fun y => key y = key x) = some x := by
  intro l
  induction l with
  | nil => intro _ x hx; simp at hx
  | cons a t ih =>
    intro hnd x hx
    rw [List.map_cons] at hnd
    have hnd' := List.nodup_cons.mp hnd
    rcases List.mem_cons.mp hx with h1 | h2
    · subst h1
      rw [List.find?_cons_of_pos _ (by simp)]
    · have hne : key a ≠ key x := by
        intro he
        exact hnd'.1 (he ▸ List.mem_map_of_mem key h2)
      rw [List.find?_cons_of_neg _ (by simp [hne])]
      exact ih hnd'.2 x h2

theorem findModule_unique {r : ModuleRegistry} (h1 : nodupNames r)
    {e : ModEntry} (he : e ∈ r.mods) : findModule r e.decl.name = some e := by
  have h1' : (r.mods.map (fun x => x.decl.name)).Nodup := h1
  unfold findModule
  exact find?_key_unique (fun x => x.decl.name) r.mods h1' e he

theorem findDecl_unique {r : ModuleRegistry} (h1 : nodupNames r)
    {e : ModEntry} (he : e ∈ r.mods) :
    (declsOf r).find? (·.name = e.decl.name) = some e.decl := by
  have hnd : ((declsOf r).map (·.name)).Nodup := by
    unfold declsOf
    rw [List.map_map]
    exact h1
  exact find?_key_unique (fun d => d.name) (declsOf r) hnd e.decl
    (List.mem_map_of_mem _ he)

/-- Along a requires-edge out of a live module, the target module is live. -/
theorem live_step {r : ModuleRegistry} (h1 : nodupNames r) (h2 : disjointExports r)
    (h3 : liveClosure r) {a b : String} (hab : edgeB (declsOf r) a b = true)
    {ea : ModEntry} (hea : ea ∈ r.mods) (hna : ea.decl.name = a) (hlive : ea.state = .Live)
    {eb : ModEntry} (heb : eb ∈ r.mods) (hnb : eb.decl.name = b) : eb.state = .Live := by
  unfold edgeB at hab
  have hfa : (declsOf r).find? (·.name = a) = some ea.decl := by
    rw [← hna]; exact findDecl_unique h1 hea
  have hfb : (declsOf r).find? (·.name = b) = some eb.decl := by
    rw [← hnb]; exact findDecl_unique h1 heb
  rw [hfa, hfb] at hab
  simp only [Bool.and_eq_true, decide_eq_true_eq, List.any_eq_true] at hab
  obtain ⟨-, s, hs1, hs2⟩ := hab
  have hs2' : s ∈ eb.decl.exports := contains_iff_mem.mp hs2
  obtain ⟨o, ho, holive, hos⟩ := h3 ea hea hlive s hs1
  by_cases hoeb : o = eb
  · rw [← hoeb]; exact holive
  · exfalso
    have hsym : Symmetric (fun a b : ModEntry => ∀ s ∈ a.decl.exports, s ∉ b.decl.exports) := by
      intro x y hxy s hsy hsx
      exact hxy s hsx hsy
    exact (h2.forall hsym ho heb hoeb) s hos hs2'

/-- Every name on a requires-path out of a live module names a live module. -/
theorem live_path {r : ModuleRegistry} (h1 : nodupNames r) (h2 : disjointExports r)
    (h3 : liveClosure r) :
    ∀ (p : List String), pathOk (declsOf r) p = true →
      ∀ {ea : ModEntry}, ea ∈ r.mods → (p.head? = some ea.decl.name) → ea.state = .Live →
      ∀ m ∈ p, ∀ e ∈ r.mods, e.decl.name = m → e.state = .Live := by
  intro p
  induction p with
  | nil => intro _ ea _ _ _ m hm; simp at hm
  | cons a t ih =>
    intro hp ea hea hhead hlive m hm e he hname
    have ha : ea.decl.name = a := by simpa using hhead.symm
    rcases List.mem_cons.mp hm with h1m | h2m
    · -- m = a: e has name a, ea has name a; nodup names → e = ea
      subst h1m
      have : e = ea := by
        have hfe := findModule_unique h1 he
        have hfa := findModule_unique h1 hea
        rw [hname] at hfe
        rw [ha] at hfa
        rw [hfe] at hfa
        exact Option.some_inj.mp hfa
      rw [this]; exact hlive
    · -- m in the tail: step along the first edge, then induct
      cases t with
      | nil => simp at h2m
      | cons b r' =>
        have hedge : edgeB (declsOf r) a b = true := pathOk_head_edge hp
        -- the entry named b exists: b ∈ gNames (declsOf r)
        have hbn : b ∈ gNames (declsOf r) := (edgeB_names hedge).2
        obtain ⟨db, hdb, hdbn⟩ := List.mem_map.mp hbn
        obtain ⟨eb, heb, hebd⟩ := List.mem_map.mp hdb
        have hebn : eb.decl.name = b := by rw [hebd]; exact hdbn
        have heblive : eb.state = .Live :=
          live_step h1 h2 h3 hedge hea ha hlive heb hebn
        exact ih (pathOk_tail hp) heb (by simp [hebn]) heblive m h2m e he hname

/-! ## Graph-transfer lemmas -/

theorem edgeB_mono {g g' : List ModDecl}
    (hf : ∀ (x : String) (d' : ModDecl),
      g'.find? (·.name = x) = some d' → g.find? (·.name = x) = some d') :
    ∀ a b, edgeB g' a b = true → edgeB g a b = true := by
  intro a b h
  unfold edgeB at h ⊢
  rcases hfa : g'.find? (·.name = a) with _ | da
  · rw [hfa] at h; simp at h
  · rcases hfb : g'.find? (·.name = b) with _ | db
    · rw [hfa, hfb] at h; simp at h
    · rw [hfa, hfb] at h
      rw [hf a da hfa, hf b db hfb]
      exact h

theorem pathOk_mono {g g' : List ModDecl}
    (hf : ∀ (x : String) (d' : ModDecl),
      g'.find? (·.name = x) = some d' → g.find? (·.name = x) = some d') :
    ∀ p, pathOk g' p = true → pathOk g p = true := by
  intro p
  induction p with
  | nil => intro _; rfl
  | cons a t ih =>
    intro h
    cases t with
    | nil => rfl
    | cons b r =>
      exact pathOk_cons_of (edgeB_mono hf a b (pathOk_head_edge h)) (ih (pathOk_tail h))

theorem isCycle_mono {g g' : List ModDecl}
    (hf : ∀ (x : String) (d' : ModDecl),
      g'.find? (·.name = x) = some d' → g.find? (·.name = x) = some d') :
    ∀ p, isCycle g' p = true → isCycle g p = true := by
  intro p h
  unfold isCycle at h ⊢
  simp only [Bool.and_eq_true, decide_eq_true_eq] at h ⊢
  exact ⟨⟨h.1.1, pathOk_mono hf p h.1.2⟩, h.2⟩

theorem edgeB_append_irrel {g : List ModDecl} {d : ModDecl} {a b : String}
    (ha : a ≠ d.name) (hb : b ≠ d.name) :
    edgeB (g ++ [d]) a b = edgeB g a b := by
  unfold edgeB
  have hfa : (g ++ [d]).find? (·.name = a) = g.find? (·.name = a) := by
    rw [List.find?_append]
    rcases hg : g.find? (·.name = a) with _ | da
    · simp [List.find?, Ne.symm ha]
    · rw [hg]; simp
  have hfb : (g ++ [d]).find? (·.name = b) = g.find? (·.name = b) := by
    rw [List.find?_append]
    rcases hg : g.find? (·.name = b) with _ | db
    · simp [List.find?, Ne.symm hb]
    · rw [hg]; simp
  rw [hfa, hfb]

theorem pathOk_append_irrel {g : List ModDecl} {d : ModDecl} :
    ∀ (p : List String), (∀ x ∈ p, x ≠ d.name) →
      pathOk (g ++ [d]) p = pathOk g p := by
  intro p
  induction p with
  | nil => intro _; rfl
  | cons a t ih =>
    intro hp
    cases t with
    | nil => rfl
    | cons b r =>
      have ha : a ≠ d.name := hp a (List.mem_cons_self _ _)
      have hb : b ≠ d.name := hp b (List.mem_cons_of_mem _ (List.mem_cons_self _ _))
      show (edgeB (g ++ [d]) a b && pathOk (g ++ [d]) (b :: r)) =
        (edgeB g a b && pathOk g (b :: r))
      rw [edgeB_append_irrel ha hb, ih (fun x hx => hp x (List.mem_cons_of_mem _ hx))]

/-! ## Effect of the commit functions on the registry -/

theorem declsOf_commitLoad (r : ModuleRegistry) (n : String) (reqs : List String) :
    declsOf (commitLoad r n reqs) = declsOf r := by
  unfold declsOf commitLoad
  rw [List.map_map]
  apply List.map_congr_left
  intro e _
  show (if e.decl.name = n then { e with state := .Live }
    else if e.decl.exports.any (fun s => reqs.contains s) then
      { e with refcount := e.refcount + 1 }
    else e).decl = e.decl
  repeat' split
  all_goals rfl

theorem declsOf_commitUnload (r : ModuleRegistry) (n : String) (reqs : List String) :
    declsOf (commitUnload r n reqs) = declsOf r := by
  unfold declsOf commitUnload
  rw [List.map_map]
  apply List.map_congr_left
  intro e _
  show (if e.decl.name = n then { e with state := .Unloaded }
    else if e.decl.exports.any (fun s => reqs.contains s) then
      { e with refcount := e.refcount - 1 }
    else e).decl = e.decl
  repeat' split
  all_goals rfl

theorem nodupNames_iff (r : ModuleRegistry) :
    nodupNames r ↔ ((declsOf r).map (·.name)).Nodup := by
  unfold nodupNames declsOf
  rw [List.map_map]
  exact Iff.rfl

/-! ## Invariant preservation -/

theorem MInv_declare (r : ModuleRegistry) (d : ModDecl) (h : MInv r) :
    MInv (declareOp r d).2 := by
  obtain ⟨hnd, hdis, hlc, hcf⟩ := h
  unfold declareOp
  by_cases hdupn : r.mods.any (·.decl.name = d.name) = true
  · rw [if_pos hdupn]; exact ⟨hnd, hdis, hlc, hcf⟩
  · rw [if_neg hdupn]
    by_cases hdups :
        d.exports.any (fun s => r.mods.any (fun e => e.decl.exports.contains s)) = true
    · rw [if_pos hdups]; exact ⟨hnd, hdis, hlc, hcf⟩
    · rw [if_neg hdups]
      show MInv ⟨r.mods ++ [⟨d, .Unloaded, 0⟩]⟩
      have hfresh : ∀ e ∈ r.mods, e.decl.name ≠ d.name := by
        intro e he hne
        exact hdupn (List.any_eq_true.mpr ⟨e, he, by simp [hne]⟩)
      have hdisj : ∀ s ∈ d.exports, ∀ e ∈ r.mods, s ∉ e.decl.exports := by
        intro s hs e he hmem
        exact hdups (List.any_eq_true.mpr
          ⟨s, hs, List.any_eq_true.mpr ⟨e, he, contains_iff_mem.mpr hmem⟩⟩)
      have hnd' : nodupNames (⟨r.mods ++ [⟨d, .Unloaded, 0⟩]⟩ : ModuleRegistry) := by
        unfold nodupNames
        simp only [List.map_append, List.map_cons, List.map_nil]
        rw [(List.perm_append_singleton _ _).nodup_iff]
        rw [List.nodup_cons]
        constructor
        · intro hmem
          obtain ⟨e, he, hne⟩ := List.mem_map.mp hmem
          exact hfresh e he hne
        · exact hnd
      have hdis' : disjointExports (⟨r.mods ++ [⟨d, .Unloaded, 0⟩]⟩ : ModuleRegistry) := by
        unfold disjointExports
        rw [List.pairwise_append]
        refine ⟨hdis, by simp, ?_⟩
        intro a ha b hb
        have hbd : b = ⟨d, .Unloaded, 0⟩ := by simpa using hb
        subst hbd
        intro s hsa hsd
        exact hdisj s hsd a ha hsa
      have hlc' : liveClosure (⟨r.mods ++ [⟨d, .Unloaded, 0⟩]⟩ : ModuleRegistry) := by
        intro e he hlive s hs
        rcases List.mem_append.mp he with h1 | h2
        · obtain ⟨o, ho, h3, h4⟩ := hlc e h1 hlive s hs
          exact ⟨o, List.mem_append_left _ ho, h3, h4⟩
        · have he2 : e = ⟨d, .Unloaded, 0⟩ := by simpa using h2
          rw [he2] at hlive
          cases hlive
      have hdecls : declsOf (⟨r.mods ++ [⟨d, .Unloaded, 0⟩]⟩ : ModuleRegistry) =
          declsOf r ++ [d] := by
        unfold declsOf
        simp
      have hcf' : cycleFree (⟨r.mods ++ [⟨d, .Unloaded, 0⟩]⟩ : ModuleRegistry) := by
        intro p hcyc m hm e' he' hname hlive
        have he'mods : e' ∈ r.mods := by
          rcases List.mem_append.mp he' with h1 | h2
          · exact h1
          · have he2 : e' = ⟨d, .Unloaded, 0⟩ := by simpa using h2
            rw [he2] at hlive
            cases hlive
        by_cases hdp : d.name ∈ p
        · obtain ⟨q, hq, hqh, hql, hq2, hqmem⟩ := cycle_rotate hcyc hm
          have hall := live_path hnd' hdis' hlc' q hq he'
            (by rw [hqh, hname]) hlive
          have hnew : (⟨d, .Unloaded, 0⟩ : ModEntry) ∈
              (⟨r.mods ++ [⟨d, .Unloaded, 0⟩]⟩ : ModuleRegistry).mods :=
            List.mem_append_right _ (List.mem_singleton_self _)
          have := hall d.name (hqmem d.name hdp) ⟨d, .Unloaded, 0⟩ hnew rfl
          cases this
        · have hparts : (2 ≤ p.length ∧ pathOk (declsOf r ++ [d]) p = true) ∧
              p.head? = p.getLast? := by
            unfold isCycle at hcyc
            simp only [Bool.and_eq_true, decide_eq_true_eq] at hcyc
            rw [hdecls] at hcyc
            exact ⟨⟨hcyc.1.1, hcyc.1.2⟩, hcyc.2⟩
          have hpath0 : pathOk (declsOf r) p = true := by
            have h0 := hparts.1.2
            rwa [pathOk_append_irrel p (fun x hx hxe => hdp (hxe ▸ hx))] at h0
          have hcyc0 : isCycle (declsOf r) p = true := by
            unfold isCycle
            simp only [Bool.and_eq_true, decide_eq_true_eq]
            exact ⟨⟨hparts.1.1, hpath0⟩, hparts.2⟩
          exact hcf p hcyc0 m hm e' he'mods hname hlive
      exact ⟨hnd', hdis', hlc', hcf'⟩

theorem MInv_load (r : ModuleRegistry) (n : String) (h : MInv r) : MInv (loadOp r n).2 := by
  obtain ⟨hnd, hdis, hlc, hcf⟩ := h
  unfold loadOp
  rcases hf : findModule r n with _ | e
  · exact ⟨hnd, hdis, hlc, hcf⟩
  · dsimp only
    cases hstate : e.state with
    | Loading => exact ⟨hnd, hdis, hlc, hcf⟩
    | Live => exact ⟨hnd, hdis, hlc, hcf⟩
    | Unloading => exact ⟨hnd, hdis, hlc, hcf⟩
    | Unloaded =>
      rcases hcy : findCycleFrom (declsOf r) n with _ | p
      case some => exact ⟨hnd, hdis, hlc, hcf⟩
      case none =>
      rcases hres : resolveCheck r e.decl.reqs with _ | s
      case some => exact ⟨hnd, hdis, hlc, hcf⟩
      case none =>
      show MInv (commitLoad r n e.decl.reqs)
      have he : e ∈ r.mods := by
        unfold findModule at hf
        exact List.mem_of_find?_eq_some hf
      have hen : e.decl.name = n := by
        unfold findModule at hf
        have := List.find?_some hf
        simpa using this
      have huniq : ∀ e0 ∈ r.mods, e0.decl.name = n → e0 = e := by
        intro e0 he0 hname
        have h1 := findModule_unique hnd he0
        rw [hname, hf] at h1
        exact (Option.some_inj.mp h1).symm
      have hfdecl : ∀ e0 : ModEntry,
          ((fun e1 : ModEntry => if e1.decl.name = n then { e1 with state := MState.Live }
            else if e1.decl.exports.any (fun s => e.decl.reqs.contains s) then
              { e1 with refcount := e1.refcount + 1 }
            else e1) e0).decl = e0.decl := by
        intro e0
        dsimp only
        repeat' split
        all_goals rfl
      have hmemc : ∀ e' ∈ (commitLoad r n e.decl.reqs).mods,
          ∃ e0 ∈ r.mods, e'.decl = e0.decl ∧
            ((e0.decl.name = n ∧ e'.state = .Live) ∨
             (e0.decl.name ≠ n ∧ e'.state = e0.state)) := by
        intro e' he'
        obtain ⟨e0, he0, hfe⟩ := List.mem_map.mp he'
        refine ⟨e0, he0, ?_⟩
        by_cases h1 : e0.decl.name = n
        · rw [← hfe, if_pos h1]
          exact ⟨rfl, Or.inl ⟨h1, rfl⟩⟩
        · by_cases h2 : e0.decl.exports.any (fun s => e.decl.reqs.contains s) = true
          · rw [← hfe, if_neg h1, if_pos h2]
            exact ⟨rfl, Or.inr ⟨h1, rfl⟩⟩
          · rw [← hfe, if_neg h1, if_neg h2]
            exact ⟨rfl, Or.inr ⟨h1, rfl⟩⟩
      have hlivemem : ∀ o ∈ r.mods, o.state = .Live →
          ∃ o' ∈ (commitLoad r n e.decl.reqs).mods, o'.state = .Live ∧ o'.decl = o.decl := by
        intro o ho holive
        refine ⟨_, List.mem_map_of_mem _ ho, ?_, hfdecl o⟩
        show (if o.decl.name = n then { o with state := MState.Live }
          else if o.decl.exports.any (fun s => e.decl.reqs.contains s) then
            { o with refcount := o.refcount + 1 }
          else o).state = MState.Live
        by_cases h1 : o.decl.name = n
        · rw [if_pos h1]
        · by_cases h2 : o.decl.exports.any (fun s => e.decl.reqs.contains s) = true
          · rw [if_neg h1, if_pos h2]; exact holive
          · rw [if_neg h1, if_neg h2]; exact holive
      have hnd' : nodupNames (commitLoad r n e.decl.reqs) := by
        rw [nodupNames_iff, declsOf_commitLoad]
        exact (nodupNames_iff r).mp hnd
      have hdis' : disjointExports (commitLoad r n e.decl.reqs) := by
        unfold disjointExports commitLoad
        rw [List.pairwise_map]
        apply hdis.imp
        intro a b hab s hsa
        rw [hfdecl a] at hsa
        rw [hfdecl b]
        exact hab s hsa
      have hresolved : ∀ s ∈ e.decl.reqs,
          ∃ o ∈ r.mods, o.state = .Live ∧ s ∈ o.decl.exports := by
        intro s hs
        have h0 := List.find?_eq_none.mp hres s hs
        simp only [Bool.not_eq_true', Bool.not_eq_false] at h0
        obtain ⟨o, ho, hcond⟩ := List.any_eq_true.mp h0
        simp only [Bool.and_eq_true, decide_eq_true_eq] at hcond
        exact ⟨o, ho, hcond.1, contains_iff_mem.mp hcond.2⟩
      have hlc' : liveClosure (commitLoad r n e.decl.reqs) := by
        intro e' he' hlive s hs
        obtain ⟨e0, he0, hdecl, hcase⟩ := hmemc e' he'
        have hse0 : s ∈ e0.decl.reqs := by rw [← hdecl]; exact hs
        have howner : ∃ o ∈ r.mods, o.state = .Live ∧ s ∈ o.decl.exports := by
          rcases hcase with ⟨hon, _⟩ | ⟨hon, hstate'⟩
          · have he0e : e0 = e := huniq e0 he0 hon
            rw [he0e] at hse0
            exact hresolved s hse0
          · rw [hstate'] at hlive
            exact hlc e0 he0 hlive s hse0
        obtain ⟨o, ho, holive, hos⟩ := howner
        obtain ⟨o', ho', holive', hod⟩ := hlivemem o ho holive
        exact ⟨o', ho', holive', by rw [hod]; exact hos⟩
      have hcf' : cycleFree (commitLoad r n e.decl.reqs) := by
        intro p hcyc m hm e' he' hname hlive
        rw [declsOf_commitLoad] at hcyc
        obtain ⟨e0, he0, hdecl, hcase⟩ := hmemc e' he'
        have h0name : e0.decl.name = m := by rw [← hname, hdecl]
        rcases hcase with ⟨hon, _⟩ | ⟨hon, hstate'⟩
        · have hmn : m = n := by rw [← h0name, hon]
          rw [hmn] at hm
          have := findCycleFrom_complete hcyc hm
          rw [hcy] at this
          simp at this
        · rw [hstate'] at hlive
          exact hcf p hcyc m hm e0 he0 h0name hlive
      exact ⟨hnd', hdis', hlc', hcf'⟩

theorem MInv_unload (r : ModuleRegistry) (n : String) (h : MInv r) : MInv (unloadOp r n).2 := by
  obtain ⟨hnd, hdis, hlc, hcf⟩ := h
  unfold unloadOp
  rcases hf : findModule r n with _ | e
  · exact ⟨hnd, hdis, hlc, hcf⟩
  · dsimp only
    by_cases hguard : (e.refcount > 0 || liveDependentExists r e) = true
    · rw [if_pos hguard]; exact ⟨hnd, hdis, hlc, hcf⟩
    · rw [if_neg hguard]
      have hnodep : liveDependentExists r e = false := by
        rcases hb : liveDependentExists r e with _ | _
        · rfl
        · exfalso; exact hguard (by rw [hb]; simp)
      cases hstate : e.state with
      | Loading => exact ⟨hnd, hdis, hlc, hcf⟩
      | Unloaded => exact ⟨hnd, hdis, hlc, hcf⟩
      | Unloading => exact ⟨hnd, hdis, hlc, hcf⟩
      | Live =>
        show MInv (commitUnload r n e.decl.reqs)
        have he : e ∈ r.mods := by
          unfold findModule at hf
          exact List.mem_of_find?_eq_some hf
        have hen : e.decl.name = n := by
          unfold findModule at hf
          have := List.find?_some hf
          simpa using this
        have huniq : ∀ e0 ∈ r.mods, e0.decl.name = n → e0 = e := by
          intro e0 he0 hname
          have h1 := findModule_unique hnd he0
          rw [hname, hf] at h1
          exact (Option.some_inj.mp h1).symm
        have hfdecl : ∀ e0 : ModEntry,
            ((fun e1 : ModEntry => if e1.decl.name = n then { e1 with state := MState.Unloaded }
              else if e1.decl.exports.any (fun s => e.decl.reqs.contains s) then
                { e1 with refcount := e1.refcount - 1 }
              else e1) e0).decl = e0.decl := by
          intro e0
          dsimp only
          repeat' split
          all_goals rfl
        have hmemc : ∀ e' ∈ (commitUnload r n e.decl.reqs).mods,
            ∃ e0 ∈ r.mods, e'.decl = e0.decl ∧
              ((e0.decl.name = n ∧ e'.state = .Unloaded) ∨
               (e0.decl.name ≠ n ∧ e'.state = e0.state)) := by
          intro e' he'
          obtain ⟨e0, he0, hfe⟩ := List.mem_map.mp he'
          refine ⟨e0, he0, ?_⟩
          by_cases h1 : e0.decl.name = n
          · rw [← hfe, if_pos h1]
            exact ⟨rfl, Or.inl ⟨h1, rfl⟩⟩
          · by_cases h2 : e0.decl.exports.any (fun s => e.decl.reqs.contains s) = true
            · rw [← hfe, if_neg h1, if_pos h2]
              exact ⟨rfl, Or.inr ⟨h1, rfl⟩⟩
            · rw [← hfe, if_neg h1, if_neg h2]
              exact ⟨rfl, Or.inr ⟨h1, rfl⟩⟩
        have hlivemem : ∀ o ∈ r.mods, o.state = .Live → o.decl.name ≠ n →
            ∃ o' ∈ (commitUnload r n e.decl.reqs).mods, o'.state = .Live ∧ o'.decl = o.decl := by
          intro o ho holive hon
          refine ⟨_, List.mem_map_of_mem _ ho, ?_, hfdecl o⟩
          show (if o.decl.name = n then { o with state := MState.Unloaded }
            else if o.decl.exports.any (fun s => e.decl.reqs.contains s) then
              { o with refcount := o.refcount - 1 }
            else o).state = MState.Live
          by_cases h2 : o.decl.exports.any (fun s => e.decl.reqs.contains s) = true
          · rw [if_neg hon, if_pos h2]; exact holive
          · rw [if_neg hon, if_neg h2]; exact holive
        have hnd' : nodupNames (commitUnload r n e.decl.reqs) := by
          rw [nodupNames_iff, declsOf_commitUnload]
          exact (nodupNames_iff r).mp hnd
        have hdis' : disjointExports (commitUnload r n e.decl.reqs) := by
          unfold disjointExports commitUnload
          rw [List.pairwise_map]
          apply hdis.imp
          intro a b hab s hsa
          rw [hfdecl a] at hsa
          rw [hfdecl b]
          exact hab s hsa
        have hlc' : liveClosure (commitUnload r n e.decl.reqs) := by
          intro e' he' hlive s hs
          obtain ⟨e0, he0, hdecl, hcase⟩ := hmemc e' he'
          have hse0 : s ∈ e0.decl.reqs := by rw [← hdecl]; exact hs
          rcases hcase with ⟨-, hstate'⟩ | ⟨hon, hstate'⟩
          · rw [hstate'] at hlive; cases hlive
          · rw [hstate'] at hlive
            obtain ⟨o, ho, holive, hos⟩ := hlc e0 he0 hlive s hse0
            by_cases honame : o.decl.name = n
            · exfalso
              have hoe : o = e := huniq o ho honame
              have hdep : liveDependentExists r e = true := by
                unfold liveDependentExists
                refine List.any_eq_true.mpr ⟨e0, he0, ?_⟩
                simp only [Bool.and_eq_true, decide_eq_true_eq]
                refine ⟨⟨by rw [hen]; exact hon, hlive⟩, ?_⟩
                refine List.any_eq_true.mpr ⟨s, hse0, ?_⟩
                apply contains_iff_mem.mpr
                rw [← hoe]
                exact hos
              rw [hdep] at hnodep
              cases hnodep
            · obtain ⟨o', ho', holive', hod⟩ := hlivemem o ho holive honame
              exact ⟨o', ho', holive', by rw [hod]; exact hos⟩
        have hcf' : cycleFree (commitUnload r n e.decl.reqs) := by
          intro p hcyc m hm e' he' hname hlive
          rw [declsOf_commitUnload] at hcyc
          obtain ⟨e0, he0, hdecl, hcase⟩ := hmemc e' he'
          have h0name : e0.decl.name = m := by rw [← hname, hdecl]
          rcases hcase with ⟨-, hstate'⟩ | ⟨-, hstate'⟩
          · rw [hstate'] at hlive; cases hlive
          · rw [hstate'] at hlive
            exact hcf p hcyc m hm e0 he0 h0name hlive
        exact ⟨hnd', hdis', hlc', hcf'⟩

theorem MInv_release (r : ModuleRegistry) (n : String) (h : MInv r) :
    MInv (releaseOp r n).2 := by
  obtain ⟨hnd, hdis, hlc, hcf⟩ := h
  unfold releaseOp
  rcases hf : findModule r n with _ | e
  · exact ⟨hnd, hdis, hlc, hcf⟩
  · dsimp only
    by_cases hstate : e.state = .Live
    · rw [if_pos hstate]; exact ⟨hnd, hdis, hlc, hcf⟩
    · rw [if_neg hstate]
      by_cases hdep : liveDependentExists r e = true
      · rw [if_pos hdep]; exact ⟨hnd, hdis, hlc, hcf⟩
      · rw [if_neg hdep]
        show MInv ⟨r.mods.filter (fun x => x.decl.name ≠ n)⟩
        have he : e ∈ r.mods := by
          unfold findModule at hf
          exact List.mem_of_find?_eq_some hf
        have hen : e.decl.name = n := by
          unfold findModule at hf
          have := List.find?_some hf
          simpa using this
        have huniq : ∀ e0 ∈ r.mods, e0.decl.name = n → e0 = e := by
          intro e0 he0 hname
          have h1 := findModule_unique hnd he0
          rw [hname, hf] at h1
          exact (Option.some_inj.mp h1).symm
        have hsubl : List.Sublist (r.mods.filter (fun x => x.decl.name ≠ n)) r.mods :=
          List.filter_sublist _
        have hnd' : nodupNames (⟨r.mods.filter (fun x => x.decl.name ≠ n)⟩ : ModuleRegistry) := by
          unfold nodupNames
          exact List.Nodup.sublist (hsubl.map _) hnd
        have hdis' : disjointExports
            (⟨r.mods.filter (fun x => x.decl.name ≠ n)⟩ : ModuleRegistry) :=
          hdis.sublist hsubl
        have hlc' : liveClosure
            (⟨r.mods.filter (fun x => x.decl.name ≠ n)⟩ : ModuleRegistry) := by
          intro e' he' hlive s hs
          have he'm : e' ∈ r.mods := hsubl.subset he'
          obtain ⟨o, ho, holive, hos⟩ := hlc e' he'm hlive s hs
          have hon : o.decl.name ≠ n := by
            intro hoeq
            have hoe : o = e := huniq o ho hoeq
            rw [hoe] at holive
            exact hstate holive
          refine ⟨o, ?_, holive, hos⟩
          exact List.mem_filter.mpr ⟨ho, by simpa using hon⟩
        have hcf' : cycleFree
            (⟨r.mods.filter (fun x => x.decl.name ≠ n)⟩ : ModuleRegistry) := by
          intro p hcyc m hm e' he' hname hlive
          have hmono : ∀ (x : String) (d' : ModDecl),
              (declsOf (⟨r.mods.filter (fun x => x.decl.name ≠ n)⟩ : ModuleRegistry)).find?
                (·.name = x) = some d' →
              (declsOf r).find? (·.name = x) = some d' := by
            intro x d' hfind
            have hd'mem : d' ∈ declsOf (⟨r.mods.filter (fun x => x.decl.name ≠ n)⟩ :
                ModuleRegistry) := List.mem_of_find?_eq_some hfind
            have hd'name : d'.name = x := by
              have := List.find?_some hfind
              simpa using this
            have hd'r : d' ∈ declsOf r := by
              unfold declsOf at hd'mem ⊢
              obtain ⟨ent, hent, hend⟩ := List.mem_map.mp hd'mem
              exact List.mem_map.mpr ⟨ent, hsubl.subset hent, hend⟩
            have hndd : ((declsOf r).map (·.name)).Nodup := (nodupNames_iff r).mp hnd
            have h2 : (declsOf r).find? (fun y => decide (y.name = d'.name)) = some d' :=
              find?_key_unique (fun d : ModDecl => d.name) (declsOf r) hndd d' hd'r
            rw [hd'name] at h2
            exact h2
          have hcyc0 : isCycle (declsOf r) p = true := isCycle_mono hmono p hcyc
          exact hcf p hcyc0 m hm e' (hsubl.subset he') hname hlive
        exact ⟨hnd', hdis', hlc', hcf'⟩

theorem resolveOp_snd (r : ModuleRegistry) (n : String) : (resolveOp r n).2 = r := by
  unfold resolveOp
  rcases hf : findModule r n with _ | e
  · rfl
  · dsimp only
    rcases hres : resolveCheck r e.decl.reqs with _ | s
    · rfl
    · rfl

theorem MInv_resolve (r : ModuleRegistry) (n : String) (h : MInv r) :
    MInv (resolveOp r n).2 := by
  rw [resolveOp_snd]
  exact h

/-- Every reachable module-registry state satisfies the invariant bundle. -/
theorem MReach_MInv (r : ModuleRegistry) (h : MReach r) : MInv r := by
  induction h with
  | init =>
    refine ⟨by simp [nodupNames], by simp [disjointExports], ?_, ?_⟩
    · intro e he; simp at he
    · intro p hcyc m hm e he; simp at he
  | declare r d _ ih => exact MInv_declare r d ih
  | load r n _ ih => exact MInv_load r n ih
  | unload r n _ ih => exact MInv_unload r n ih
  | release r n _ ih => exact MInv_release r n ih
  | resolve r n _ ih => exact MInv_resolve r n ih

/-- C3: when the declared requires-edges contain a cycle across module
boundaries, a load attempt for a module on the cycle fails with
`CyclicDependency` carrying a full cycle path through that module and leaves
the registry unchanged; and in every reachable registry state, no module
participating in a requires-cycle is ever in the `Live` state. -/
theorem cyclic_load_fails :
    (∀ (r : ModuleRegistry) (m : String) (e : ModEntry) (p : List String),
        findModule r m = some e → e.state = .Unloaded →
        isCycle (declsOf r) p = true → m ∈ p →
        ∃ q, loadOp r m = (.error (.CyclicDependency q), r) ∧
          isCycle (declsOf r) q = true ∧ m ∈ q) ∧
    (∀ r, MReach r → ∀ p, isCycle (declsOf r) p = true →
        ∀ m ∈ p, ∀ e ∈ r.mods, e.decl.name = m → e.state ≠ .Live) := by
  constructor
  · intro r m e p hf hs hcyc hm
    have hsome := findCycleFrom_complete hcyc hm
    rcases hq : findCycleFrom (declsOf r) m with _ | q
    · rw [hq] at hsome; simp at hsome
    · obtain ⟨hqc, hqh⟩ := findCycleFrom_sound hq
      refine ⟨q, ?_, hqc, ?_⟩
      · unfold loadOp
        rw [hf]
        dsimp only
        rw [hs]
        dsimp only
        rw [hq]
      · cases q with
        | nil => simp at hqh
        | cons z zs =>
          have hz : z = m := by simpa using hqh
          rw [hz]
          exact List.mem_cons_self _ _
  · intro r hr p hcyc m hm e he hname
    exact (MReach_MInv r hr).2.2.2 p hcyc m hm e he hname

/-- C3 witness: two declared modules that require each other's symbol; the
load attempt for the first reports the cycle, and its entry is not live. -/
theorem cyclic_load_fails_witness :
    (∃ q, loadOp (declareOp (declareOp ⟨[]⟩ ⟨"a", ["sa"], ["sb"]⟩).2 ⟨"b", ["sb"], ["sa"]⟩).2 "a"
        = (.error (.CyclicDependency q),
           (declareOp (declareOp ⟨[]⟩ ⟨"a", ["sa"], ["sb"]⟩).2 ⟨"b", ["sb"], ["sa"]⟩).2) ∧
        isCycle (declsOf (declareOp (declareOp ⟨[]⟩ ⟨"a", ["sa"], ["sb"]⟩).2
          ⟨"b", ["sb"], ["sa"]⟩).2) q = true ∧ "a" ∈ q) ∧
    (∀ e ∈ (declareOp (declareOp ⟨[]⟩ ⟨"a", ["sa"], ["sb"]⟩).2 ⟨"b", ["sb"], ["sa"]⟩).2.mods,
        e.decl.name = "a" → e.state ≠ .Live) := by
  constructor
  · exact cyclic_load_fails.1 _ "a" ⟨⟨"a", ["sa"], ["sb"]⟩, .Unloaded, 0⟩ ["a", "b", "a"]
      (by decide) rfl (by decide) (by decide)
  · exact cyclic_load_fails.2 _
      (MReach.declare _ _ (MReach.declare _ _ MReach.init)) ["a", "b", "a"]
      (by decide) "a" (by decide)

/-! ## Topological-sort completeness toolkit -/

theorem name_inj {decls : List ModDecl} (hnodup : (decls.map (·.name)).Nodup)
    {a b : ModDecl} (ha : a ∈ decls) (hb : b ∈ decls) (hn : a.name = b.name) : a = b := by
  have h1 := find?_key_unique (fun d : ModDecl => d.name) decls hnodup a ha
  have h2 := find?_key_unique (fun d : ModDecl => d.name) decls hnodup b hb
  have h1' : decls.find? (fun y => decide (y.name = b.name)) = some a := by
    rw [← hn]; exact h1
  rw [h1'] at h2
  exact Option.some_inj.mp h2

theorem exists_long_path {g : List ModDecl} {S : List ModDecl}
    (hS : ∀ d ∈ S, ∃ e ∈ S, edgeB g d.name e.name = true)
    (d0 : ModDecl) (hd0 : d0 ∈ S) :
    ∀ k, ∃ p : List String, pathOk g p = true ∧ p.length = k + 1 ∧
      ∀ x ∈ p, ∃ dd ∈ S, dd.name = x := by
  intro k
  induction k with
  | zero =>
    refine ⟨[d0.name], rfl, rfl, ?_⟩
    intro x hx
    have : x = d0.name := by simpa using hx
    exact ⟨d0, hd0, this.symm⟩
  | succ k ih =>
    obtain ⟨p, hp, hlen, hmem⟩ := ih
    have hne : p ≠ [] := by
      intro h; rw [h] at hlen; simp at hlen
    have hsplit : p.dropLast ++ [p.getLast hne] = p := List.dropLast_append_getLast hne
    obtain ⟨dz, hdz, hdzn⟩ := hmem (p.getLast hne) (List.getLast_mem hne)
    obtain ⟨en, hen, hedge⟩ := hS dz hdz
    refine ⟨p ++ [en.name], ?_, by simp [hlen], ?_⟩
    · have h1 : pathOk g (p.dropLast ++ [p.getLast hne]) = true := by
        rw [hsplit]; exact hp
      have hz : edgeB g (p.getLast hne) en.name = true := by
        rw [← hdzn]; exact hedge
      have h2 : pathOk g (p.getLast hne :: [en.name]) = true := by
        simp [pathOk, hz]
      have h3 := pathOk_join p.dropLast (p.getLast hne) [en.name] h1 h2
      have h4 : p ++ [en.name] = p.dropLast ++ p.getLast hne :: [en.name] := by
        conv_lhs => rw [← hsplit]
        simp
      rw [h4]; exact h3
    · intro x hx
      rcases List.mem_append.mp hx with h1 | h2
      · exact hmem x h1
      · have : x = en.name := by simpa using h2
        exact ⟨en, hen, this.symm⟩

theorem no_all_blocked {g : List ModDecl} {S : List ModDecl}
    (hacyc : ∀ p, isCycle g p = false) (hne : S ≠ [])
    (hS : ∀ d ∈ S, ∃ e ∈ S, edgeB g d.name e.name = true) : False := by
  obtain ⟨d0, hd0⟩ : ∃ d, d ∈ S := by
    cases S with
    | nil => exact absurd rfl hne
    | cons a t => exact ⟨a, List.mem_cons_self _ _⟩
  obtain ⟨p, hp, hlen, hmem⟩ := exists_long_path hS d0 hd0 (S.map (·.name)).length
  have hsub : ∀ x ∈ p, x ∈ S.map (·.name) := by
    intro x hx
    obtain ⟨dd, hdd, hn⟩ := hmem x hx
    rw [← hn]
    exact List.mem_map_of_mem _ hdd
  have hnd : ¬p.Nodup := by
    intro hnd
    have := List.Subperm.length_le (List.Nodup.subperm hnd hsub)
    omega
  obtain ⟨l1, x, l2, l3, hsplit⟩ := exists_dup_split p hnd
  have hp1 : pathOk g (l1 ++ x :: (l2 ++ x :: l3)) = true := by
    have he : l1 ++ x :: (l2 ++ x :: l3) = p := by rw [hsplit]; simp
    rw [he]; exact hp
  obtain ⟨-, hB⟩ := pathOk_split l1 x (l2 ++ x :: l3) hp1
  have hB' : pathOk g ((x :: l2) ++ x :: l3) = true := by
    rw [List.cons_append]; exact hB
  obtain ⟨hXL, -⟩ := pathOk_split (x :: l2) x l3 hB'
  have hcyc : isCycle g ((x :: l2) ++ [x]) = true := by
    unfold isCycle
    simp only [Bool.and_eq_true, decide_eq_true_eq]
    refine ⟨⟨by simp, hXL⟩, ?_⟩
    rw [List.getLast?_concat]
    rfl
  rw [hacyc ((x :: l2) ++ [x])] at hcyc
  cases hcyc

theorem commitLoad_decl (r : ModuleRegistry) (n : String) (reqs : List String) :
    ∀ e' ∈ (commitLoad r n reqs).mods, ∃ e0 ∈ r.mods, e'.decl = e0.decl ∧
      ((e0.decl.name = n ∧ e'.state = .Live) ∨
       (e0.decl.name ≠ n ∧ e'.state = e0.state)) := by
  intro e' he'
  obtain ⟨e0, he0, hfe⟩ := List.mem_map.mp he'
  refine ⟨e0, he0, ?_⟩
  by_cases h1 : e0.decl.name = n
  · rw [← hfe, if_pos h1]
    exact ⟨rfl, Or.inl ⟨h1, rfl⟩⟩
  · by_cases h2 : e0.decl.exports.any (fun s => reqs.contains s) = true
    · rw [← hfe, if_neg h1, if_pos h2]
      exact ⟨rfl, Or.inr ⟨h1, rfl⟩⟩
    · rw [← hfe, if_neg h1, if_neg h2]
      exact ⟨rfl, Or.inr ⟨h1, rfl⟩⟩

theorem loadOrderAux_spec (decls : List ModDecl)
    (hnodup : (decls.map (·.name)).Nodup)
    (hself : ∀ d ∈ decls, ∀ s ∈ d.reqs, s ∉ d.exports)
    (hclosed : ∀ d ∈ decls, ∀ s ∈ d.reqs, ∃ e ∈ decls, s ∈ e.exports)
    (hacyc : ∀ p, isCycle decls p = false) :
    ∀ (fuel : Nat) (placed remaining : List ModDecl) (r : ModuleRegistry),
      remaining.length ≤ fuel →
      (placed ++ remaining).Perm decls →
      declsOf r = decls →
      (∀ e ∈ r.mods, (e.decl ∈ placed → e.state = .Live) ∧
        (e.decl ∉ placed → e.state = .Unloaded)) →
      ∃ ord r', loadOrderAux fuel placed remaining = some ord ∧
        ord.Perm (remaining.map (·.name)) ∧
        runLoads r ord = some r' ∧ declsOf r' = decls ∧
        (∀ e ∈ r'.mods, (e.decl ∈ placed ++ remaining → e.state = .Live) ∧
          (e.decl ∉ placed ++ remaining → e.state = .Unloaded)) := by
  intro fuel
  induction fuel with
  | zero =>
    intro placed remaining r hfuel hperm hdecls hstates
    have hrem : remaining = [] := List.eq_nil_of_length_eq_zero (Nat.le_zero.mp hfuel)
    subst hrem
    refine ⟨[], r, rfl, by simp, rfl, hdecls, ?_⟩
    simpa using hstates
  | succ fuel ih =>
    intro placed remaining r hfuel hperm hdecls hstates
    cases remaining with
    | nil =>
      refine ⟨[], r, rfl, by simp, rfl, hdecls, ?_⟩
      simpa using hstates
    | cons d0 rest =>
      rcases hfind : (d0 :: rest).find? (loadableIn placed) with _ | d
      · exfalso
        have hblocked : ∀ d ∈ d0 :: rest, ∃ e ∈ d0 :: rest,
            edgeB decls d.name e.name = true := by
          intro d hd
          have hnl : loadableIn placed d = false := by
            have hnot := List.find?_eq_none.mp hfind d hd
            cases hb : loadableIn placed d with
            | false => rfl
            | true => exact absurd hb hnot
          have hex : ∃ s ∈ d.reqs, (placed.any (fun p0 => p0.exports.contains s)) = false := by
            by_contra hc
            push_neg at hc
            have hT : loadableIn placed d = true := by
              unfold loadableIn
              rw [List.all_eq_true]
              intro s hs
              rcases hb : (placed.any (fun p0 => p0.exports.contains s)) with _ | _
              · exact absurd hb (hc s hs)
              · rfl
            rw [hT] at hnl
            cases hnl
          obtain ⟨s, hs, hnoexp⟩ := hex
          have hd_decls : d ∈ decls := (hperm.mem_iff).mp (List.mem_append_right _ hd)
          obtain ⟨ex, hex_decls, hex_s⟩ := hclosed d hd_decls s hs
          have hex_np : ex ∉ placed := by
            intro hp0
            have hT : placed.any (fun p0 => p0.exports.contains s) = true :=
              List.any_eq_true.mpr ⟨ex, hp0, contains_iff_mem.mpr hex_s⟩
            rw [hT] at hnoexp
            cases hnoexp
          have hex_rem : ex ∈ d0 :: rest := by
            have hm : ex ∈ placed ++ (d0 :: rest) := (hperm.mem_iff).mpr hex_decls
            rcases List.mem_append.mp hm with h1 | h2
            · exact absurd h1 hex_np
            · exact h2
          have hdne : d.name ≠ ex.name := by
            intro heq
            have hde : d = ex := name_inj hnodup hd_decls hex_decls heq
            rw [← hde] at hex_s
            exact hself d hd_decls s hs hex_s
          refine ⟨ex, hex_rem, ?_⟩
          unfold edgeB
          have hf1 : decls.find? (fun y => decide (y.name = d.name)) = some d :=
            find?_key_unique (fun dd : ModDecl => dd.name) decls hnodup d hd_decls
          have hf2 : decls.find? (fun y => decide (y.name = ex.name)) = some ex :=
            find?_key_unique (fun dd : ModDecl => dd.name) decls hnodup ex hex_decls
          rw [hf1, hf2]
          simp only [Bool.and_eq_true, decide_eq_true_eq]
          exact ⟨hdne, List.any_eq_true.mpr ⟨s, hs, contains_iff_mem.mpr hex_s⟩⟩
        exact no_all_blocked hacyc (by simp) hblocked
      · have hd_rem : d ∈ d0 :: rest := List.mem_of_find?_eq_some hfind
        have hload : loadableIn placed d = true := List.find?_some hfind
        have hd_decls : d ∈ decls := (hperm.mem_iff).mp (List.mem_append_right _ hd_rem)
        have hpr_nodup : ((placed ++ d0 :: rest).map (·.name)).Nodup :=
          ((hperm.map (·.name)).nodup_iff).mpr hnodup
        have hd_np : d ∉ placed := by
          intro hp0
          rw [List.map_append] at hpr_nodup
          have hdisj2 := (List.nodup_append.mp hpr_nodup).2.2
          exact hdisj2 (List.mem_map_of_mem _ hp0) (List.mem_map_of_mem _ hd_rem)
        have hnodupr : nodupNames r := (nodupNames_iff r).mpr (by rw [hdecls]; exact hnodup)
        obtain ⟨ed, hed, hedd⟩ : ∃ ed ∈ r.mods, ed.decl = d := by
          have hmm : d ∈ declsOf r := by rw [hdecls]; exact hd_decls
          exact List.mem_map.mp hmm
        have hfm : findModule r d.name = some ed := by
          have hq := findModule_unique hnodupr hed
          rw [hedd] at hq
          exact hq
        have hstate_ed : ed.state = .Unloaded := (hstates ed hed).2 (by rw [hedd]; exact hd_np)
        have hcynone : findCycleFrom (declsOf r) d.name = none := by
          rcases hq : findCycleFrom (declsOf r) d.name with _ | q
          · rfl
          · exfalso
            obtain ⟨hqc, -⟩ := findCycleFrom_sound hq
            rw [hdecls, hacyc q] at hqc
            cases hqc
        have hresnone : resolveCheck r ed.decl.reqs = none := by
          unfold resolveCheck
          rw [List.find?_eq_none]
          intro s hs
          rw [hedd] at hs
          have hany : placed.any (fun p0 => p0.exports.contains s) = true := by
            unfold loadableIn at hload
            rw [List.all_eq_true] at hload
            exact hload s hs
          obtain ⟨p0, hp0, hp0s⟩ := List.any_eq_true.mp hany
          obtain ⟨e0, he0, he0d⟩ : ∃ e0 ∈ r.mods, e0.decl = p0 := by
            have hp0decls : p0 ∈ decls := (hperm.mem_iff).mp (List.mem_append_left _ hp0)
            have hmm : p0 ∈ declsOf r := by rw [hdecls]; exact hp0decls
            exact List.mem_map.mp hmm
          have he0live : e0.state = .Live := (hstates e0 he0).1 (by rw [he0d]; exact hp0)
          have hmem : s ∈ e0.decl.exports := contains_iff_mem.mp (by rw [he0d]; exact hp0s)
          simp only [Bool.not_eq_true', Bool.not_eq_false, List.any_eq_true,
            Bool.and_eq_true, decide_eq_true_eq]
          exact ⟨e0, he0, he0live, contains_iff_mem.mpr hmem⟩
        have hloadeq : loadOp r d.name = (.ok d.name, commitLoad r d.name ed.decl.reqs) := by
          unfold loadOp
          rw [hfm]
          dsimp only
          rw [hstate_ed]
          dsimp only
          rw [hcynone]
          dsimp only
          rw [hresnone]
        have hdecls2 : declsOf (commitLoad r d.name ed.decl.reqs) = decls := by
          rw [declsOf_commitLoad]; exact hdecls
        have hperm1 : (d0 :: rest).Perm (d :: (d0 :: rest).erase d) :=
          List.perm_cons_erase hd_rem
        have hperm2 : ((placed ++ [d]) ++ (d0 :: rest).erase d).Perm decls := by
          have h2app : (placed ++ [d]) ++ (d0 :: rest).erase d =
              placed ++ (d :: (d0 :: rest).erase d) := by simp
          rw [h2app]
          exact ((hperm1.symm).append_left placed).trans hperm
        have hfuel2 : ((d0 :: rest).erase d).length ≤ fuel := by
          have hle := List.length_erase_of_mem hd_rem
          rw [hle]
          simp only [List.length_cons] at hfuel ⊢
          omega
        have hstates2 : ∀ e' ∈ (commitLoad r d.name ed.decl.reqs).mods,
            (e'.decl ∈ placed ++ [d] → e'.state = .Live) ∧
            (e'.decl ∉ placed ++ [d] → e'.state = .Unloaded) := by
          intro e' he'
          obtain ⟨e0, he0, hdecl, hcase⟩ := commitLoad_decl r d.name ed.decl.reqs e' he'
          constructor
          · intro hin
            rcases hcase with ⟨-, hl⟩ | ⟨hne, hst⟩
            · exact hl
            · rw [hst]
              rcases List.mem_append.mp hin with h1 | h2
              · exact (hstates e0 he0).1 (by rw [← hdecl]; exact h1)
              · exfalso
                have hEq : e'.decl = d := by simpa using h2
                rw [hdecl] at hEq
                exact hne (by rw [hEq])
          · intro hnin
            rcases hcase with ⟨hn, -⟩ | ⟨-, hst⟩
            · exfalso
              have he0decls : e0.decl ∈ decls := by
                rw [← hdecls]; exact List.mem_map_of_mem _ he0
              have hEq : e0.decl = d := name_inj hnodup he0decls hd_decls hn
              apply hnin
              rw [hdecl, hEq]
              simp
            · rw [hst]
              exact (hstates e0 he0).2
                (fun hc => hnin (List.mem_append_left _ (hdecl ▸ hc)))
        obtain ⟨ord', r', hord', hperm', hrun', hdecls', hstates'⟩ :=
          ih (placed ++ [d]) ((d0 :: rest).erase d) (commitLoad r d.name ed.decl.reqs)
            hfuel2 hperm2 hdecls2 hstates2
        have hiff : ∀ x : ModDecl,
            x ∈ placed ++ d0 :: rest ↔ x ∈ (placed ++ [d]) ++ (d0 :: rest).erase d := by
          intro x
          rw [hperm.mem_iff, hperm2.mem_iff]
        refine ⟨d.name :: ord', r', ?_, ?_, ?_, hdecls', ?_⟩
        · show loadOrderAux (fuel + 1) placed (d0 :: rest) = some (d.name :: ord')
          unfold loadOrderAux
          rw [hfind]
          dsimp only
          rw [hord']
          rfl
        · have h2m := hperm1.map (·.name)
          exact (List.Perm.cons d.name hperm').trans h2m.symm
        · show runLoads r (d.name :: ord') = some r'
          unfold runLoads
          rw [hloadeq]
          exact hrun'
        · intro e' he'
          have hst' := hstates' e' he'
          constructor
          · intro hin
            exact hst'.1 ((hiff _).mp hin)
          · intro hnin
            exact hst'.2 (fun hc => hnin ((hiff _).mpr hc))

/-- C2: for every set of module dependency declarations with unique names,
no self-satisfied requirements, every required symbol exported by some
declared module, and requires-edges forming no cycle, the resolver finds a
total load order: it covers every declared module, and running the loads in
that order from the freshly declared registry succeeds step by step — each
module's required symbols are owned by an already-Live module when it is
resolved — leaving every module Live. -/
theorem load_order_complete (decls : List ModDecl)
    (hnodup : (decls.map (·.name)).Nodup)
    (hself : ∀ d ∈ decls, ∀ s ∈ d.reqs, s ∉ d.exports)
    (hclosed : ∀ d ∈ decls, ∀ s ∈ d.reqs, ∃ e ∈ decls, s ∈ e.exports)
    (hacyc : ∀ p, isCycle decls p = false) :
    ∃ ord r', loadOrder decls = some ord ∧ ord.Perm (decls.map (·.name)) ∧
      runLoads (initRegistry decls) ord = some r' ∧
      ∀ e ∈ r'.mods, e.state = .Live := by
  have hdecls0 : declsOf (initRegistry decls) = decls := by
    unfold declsOf initRegistry
    rw [List.map_map]
    have hid : ((fun x : ModEntry => x.decl) ∘ fun d : ModDecl =>
        (⟨d, .Unloaded, 0⟩ : ModEntry)) = id := rfl
    rw [hid, List.map_id]
  have hstates0 : ∀ e ∈ (initRegistry decls).mods,
      (e.decl ∈ ([] : List ModDecl) → e.state = .Live) ∧
      (e.decl ∉ ([] : List ModDecl) → e.state = .Unloaded) := by
    intro e he
    constructor
    · intro hmm; simp at hmm
    · intro _
      obtain ⟨dd, hdd, hde⟩ := List.mem_map.mp he
      rw [← hde]
  obtain ⟨ord, r', h1, h2, h3, h4, h5⟩ :=
    loadOrderAux_spec decls hnodup hself hclosed hacyc decls.length [] decls
      (initRegistry decls) le_rfl (by simp) hdecls0 hstates0
  refine ⟨ord, r', h1, h2, h3, ?_⟩
  intro e he
  apply (h5 e he).1
  show e.decl ∈ [] ++ decls
  simp only [List.nil_append]
  rw [← h4]
  exact List.mem_map_of_mem _ he

/-- C2 witness: the spec's scenario — A exports s1, B requires s1 and
exports s2, C requires s2 — has a valid load order found by the resolver. -/
theorem load_order_complete_witness :
    ∃ ord r',
      loadOrder [⟨"A", ["s1"], []⟩, ⟨"B", ["s2"], ["s1"]⟩, ⟨"C", [], ["s2"]⟩] = some ord ∧
      ord.Perm (([⟨"A", ["s1"], []⟩, ⟨"B", ["s2"], ["s1"]⟩,
        ⟨"C", [], ["s2"]⟩] : List ModDecl).map (·.name)) ∧
      runLoads (initRegistry [⟨"A", ["s1"], []⟩, ⟨"B", ["s2"], ["s1"]⟩, ⟨"C", [], ["s2"]⟩])
        ord = some r' ∧
      ∀ e ∈ r'.mods, e.state = .Live :=
  load_order_complete _ (by decide) (by decide) (by decide)
    (noCycle_of_checker (by decide))

/-! ## Driver-side basic lemmas -/

theorem matchAttempt_failed (ds : List Driver) (path : String) (cs : List String) :
    ∀ (fuel : Nat) (f : List (String × String)) (out : MatchOutcome)
      (f' : List (String × String)),
      matchAttempt ds path cs fuel f = (out, f') →
      (∀ q ∈ f, q ∈ f') ∧ (∀ q ∈ f', q ∈ f ∨ q.1 = path) := by
  intro fuel
  induction fuel with
  | zero =>
    intro f out f' h
    unfold matchAttempt at h
    cases h
    exact ⟨fun q hq => hq, fun q hq => Or.inl hq⟩
  | succ fuel ih =>
    intro f out f' h
    unfold matchAttempt at h
    rcases hsel : selectCandidate ds f path cs 0 with _ | di
    · rw [hsel] at h
      cases h
      exact ⟨fun q hq => hq, fun q hq => Or.inl hq⟩
    · rw [hsel] at h
      obtain ⟨d, i⟩ := di
      dsimp only at h
      rcases hp : probeOf d path with _ | _ | _
      · rw [hp] at h; cases h
        exact ⟨fun q hq => hq, fun q hq => Or.inl hq⟩
      · rw [hp] at h; cases h
        exact ⟨fun q hq => hq, fun q hq => Or.inl hq⟩
      · rw [hp] at h
        obtain ⟨h1, h2⟩ := ih ((path, d.dname) :: f) out f' h
        refine ⟨fun q hq => h1 q (List.mem_cons_of_mem _ hq), ?_⟩
        intro q hq
        rcases h2 q hq with hq1 | hq2
        · rcases List.mem_cons.mp hq1 with hq3 | hq4
          · right; rw [hq3]
          · left; exact hq4
        · right; exact hq2

theorem passNodeCore_parts (st : DrvState) (n : DeviceNode) :
    (passNodeCore st n).drivers = st.drivers ∧
    (passNodeCore st n).nodes = st.nodes ∧
    (passNodeCore st n).retryBound = st.retryBound ∧
    (∀ b ∈ st.bindings, b ∈ (passNodeCore st n).bindings) ∧
    (∀ b ∈ (passNodeCore st n).bindings, b ∈ st.bindings ∨ b.nodePath = n.path) ∧
    (∀ q ∈ st.failedPairs, q ∈ (passNodeCore st n).failedPairs) ∧
    (∀ q ∈ (passNodeCore st n).failedPairs, q ∈ st.failedPairs ∨ q.1 = n.path) := by
  unfold passNodeCore
  rcases hma : matchAttempt st.drivers n.path n.compatible (attemptFuel st.drivers)
    st.failedPairs with ⟨out, f'⟩
  obtain ⟨hf1, hf2⟩ := matchAttempt_failed _ _ _ _ _ _ _ hma
  cases out with
  | bound d =>
    refine ⟨rfl, rfl, rfl, ?_, ?_, hf1, hf2⟩
    · intro b hb; exact List.mem_cons_of_mem _ hb
    · intro b hb
      rcases List.mem_cons.mp hb with h1 | h2
      · right; rw [h1]
      · left; exact h2
  | deferredP d =>
    exact ⟨rfl, rfl, rfl, fun b hb => hb, fun b hb => Or.inl hb, hf1, hf2⟩
  | noDriver =>
    exact ⟨rfl, rfl, rfl, fun b hb => hb, fun b hb => Or.inl hb, hf1, hf2⟩

theorem passNode_parts (st : DrvState) (n : DeviceNode) :
    (passNode st n).drivers = st.drivers ∧
    (passNode st n).nodes = st.nodes ∧
    (passNode st n).retryBound = st.retryBound ∧
    (∀ b ∈ st.bindings, b ∈ (passNode st n).bindings) ∧
    (∀ b ∈ (passNode st n).bindings, b ∈ st.bindings ∨ b.nodePath = n.path) ∧
    (∀ q ∈ st.failedPairs, q ∈ (passNode st n).failedPairs) ∧
    (∀ q ∈ (passNode st n).failedPairs, q ∈ st.failedPairs ∨ q.1 = n.path) := by
  unfold passNode
  by_cases hb : isBound st n.path = true
  · rw [if_pos hb]
    exact ⟨rfl, rfl, rfl, fun b hb => hb, fun b hb => Or.inl hb,
      fun q hq => hq, fun q hq => Or.inl hq⟩
  · rw [if_neg hb]
    rcases hld : lookupDeferred st.deferredQ n.path with _ | e
    · exact passNodeCore_parts st n
    · dsimp only
      by_cases hatt : st.retryBound ≤ e.attempts
      · rw [if_pos hatt]
        exact ⟨rfl, rfl, rfl, fun b hb => hb, fun b hb => Or.inl hb,
          fun q hq => hq, fun q hq => Or.inl hq⟩
      · rw [if_neg hatt]
        exact passNodeCore_parts st n

theorem foldl_passNode_parts (ns : List DeviceNode) :
    ∀ (st : DrvState),
      (ns.foldl passNode st).drivers = st.drivers ∧
      (ns.foldl passNode st).nodes = st.nodes ∧
      (ns.foldl passNode st).retryBound = st.retryBound ∧
      (∀ b ∈ st.bindings, b ∈ (ns.foldl passNode st).bindings) ∧
      (∀ b ∈ (ns.foldl passNode st).bindings,
        b ∈ st.bindings ∨ ∃ n2 ∈ ns, b.nodePath = n2.path) ∧
      (∀ q ∈ st.failedPairs, q ∈ (ns.foldl passNode st).failedPairs) ∧
      (∀ q ∈ (ns.foldl passNode st).failedPairs,
        q ∈ st.failedPairs ∨ ∃ n2 ∈ ns, q.1 = n2.path) := by
  induction ns with
  | nil =>
    intro st
    exact ⟨rfl, rfl, rfl, fun b hb => hb, fun b hb => Or.inl hb,
      fun q hq => hq, fun q hq => Or.inl hq⟩
  | cons n2 rest ih =>
    intro st
    obtain ⟨d1, n1, r1, b1, b2, f1, f2⟩ := passNode_parts st n2
    obtain ⟨d1', n1', r1', b1', b2', f1', f2'⟩ := ih (passNode st n2)
    refine ⟨by rw [List.foldl_cons, d1', d1], by rw [List.foldl_cons, n1', n1],
      by rw [List.foldl_cons, r1', r1], ?_, ?_, ?_, ?_⟩
    · intro b hb; exact b1' b (b1 b hb)
    · intro b hb
      rcases b2' b hb with h1 | h2
      · rcases b2 b h1 with h3 | h4
        · left; exact h3
        · right; exact ⟨n2, List.mem_cons_self _ _, h4⟩
      · obtain ⟨n3, hn3, hp3⟩ := h2
        right; exact ⟨n3, List.mem_cons_of_mem _ hn3, hp3⟩
    · intro q hq; exact f1' q (f1 q hq)
    · intro q hq
      rcases f2' q hq with h1 | h2
      · rcases f2 q h1 with h3 | h4
        · left; exact h3
        · right; exact ⟨n2, List.mem_cons_self _ _, h4⟩
      · obtain ⟨n3, hn3, hp3⟩ := h2
        right; exact ⟨n3, List.mem_cons_of_mem _ hn3, hp3⟩

/-! ## Binding uniqueness -/

theorem notBound_not_mem {st : DrvState} {p : String} (hb : isBound st p = false) :
    p ∉ st.bindings.map (·.nodePath) := by
  intro hmem
  obtain ⟨b, hbm, hbp⟩ := List.mem_map.mp hmem
  unfold isBound at hb
  have : st.bindings.any (·.nodePath = p) = true :=
    List.any_eq_true.mpr ⟨b, hbm, by simp [hbp]⟩
  rw [this] at hb
  cases hb

theorem passNodeCore_nodup (st : DrvState) (n : DeviceNode)
    (hb : isBound st n.path = false)
    (h : (st.bindings.map (·.nodePath)).Nodup) :
    ((passNodeCore st n).bindings.map (·.nodePath)).Nodup := by
  unfold passNodeCore
  rcases hma : matchAttempt st.drivers n.path n.compatible (attemptFuel st.drivers)
    st.failedPairs with ⟨out, f'⟩
  cases out with
  | bound d =>
    show ((⟨n.path, d.dname⟩ :: st.bindings).map (·.nodePath)).Nodup
    rw [List.map_cons, List.nodup_cons]
    exact ⟨notBound_not_mem hb, h⟩
  | deferredP d => exact h
  | noDriver => exact h

theorem passNode_nodup (st : DrvState) (n : DeviceNode)
    (h : (st.bindings.map (·.nodePath)).Nodup) :
    ((passNode st n).bindings.map (·.nodePath)).Nodup := by
  unfold passNode
  by_cases hb : isBound st n.path = true
  · rw [if_pos hb]; exact h
  · rw [if_neg hb]
    have hb' : isBound st n.path = false := by
      cases hx : isBound st n.path with
      | false => rfl
      | true => exact absurd hx hb
    rcases hld : lookupDeferred st.deferredQ n.path with _ | e
    · exact passNodeCore_nodup st n hb' h
    · dsimp only
      by_cases hatt : st.retryBound ≤ e.attempts
      · rw [if_pos hatt]; exact h
      · rw [if_neg hatt]; exact passNodeCore_nodup st n hb' h

theorem foldl_passNode_nodup (ns : List DeviceNode) :
    ∀ (st : DrvState), (st.bindings.map (·.nodePath)).Nodup →
      ((ns.foldl passNode st).bindings.map (·.nodePath)).Nodup := by
  induction ns with
  | nil => intro st h; exact h
  | cons n2 rest ih =>
    intro st h
    exact ih (passNode st n2) (passNode_nodup st n2 h)

/-- C7: in every state reachable by any sequence of operations, each device
node has at most one live Binding — the binding table holds no two bindings
for the same node path, so no operation ever creates a second Binding for a
node that already has one. -/
theorem binding_unique (st : DrvState) (h : DReach st) :
    (st.bindings.map (·.nodePath)).Nodup := by
  induction h with
  | init nodes retryBound hnd => exact List.nodup_nil
  | register st d _ ih =>
    unfold registerDriver
    by_cases h1 : st.drivers.any (·.dname = d.dname) = true
    · rw [if_pos h1]; exact ih
    · rw [if_neg h1]
      by_cases h2 : st.drivers.any (fun d0 => driversConflict d0 d) = true
      · rw [if_pos h2]; exact ih
      · rw [if_neg h2]
        exact foldl_passNode_nodup _ _ ih
  | unregister st name _ ih =>
    unfold unregisterDriver
    by_cases h1 : st.drivers.any (·.dname = name) = true
    · rw [if_neg (by simp [h1])]
      by_cases h2 : st.bindings.any (·.driverName = name) = true
      · rw [if_pos h2]; exact ih
      · rw [if_neg h2]; exact ih
    · rw [if_pos (by simp only [Bool.not_eq_true] at h1; simp [h1])]
      exact ih
  | unbind st path _ ih =>
    unfold unbindOp
    by_cases h1 : st.bindings.any (·.nodePath = path) = true
    · rw [if_pos h1]
      exact List.Nodup.sublist ((List.filter_sublist _).map _) ih
    · rw [if_neg h1]; exact ih
  | bindReq st path _ ih =>
    unfold bindOp
    rcases hf : st.nodes.find? (·.path = path) with _ | n
    · rw [hf]; exact ih
    · rw [hf]
      dsimp only
      by_cases h1 : isBound st path = true
      · rw [if_pos h1]; exact ih
      · rw [if_neg h1]
        have h1' : isBound st path = false := by
          cases hx : isBound st path with
          | false => rfl
          | true => exact absurd hx h1
        have hnp : n.path = path := by
          have := List.find?_some hf
          simpa using this
        rcases hma : matchAttempt st.drivers n.path n.compatible
          (attemptFuel st.drivers) st.failedPairs with ⟨out, f'⟩
        cases out with
        | bound d =>
          show ((⟨n.path, d.dname⟩ :: st.bindings).map (·.nodePath)).Nodup
          rw [List.map_cons, List.nodup_cons]
          refine ⟨?_, ih⟩
          rw [hnp]
          exact notBound_not_mem h1'
        | deferredP d => exact ih
        | noDriver => exact ih
  | pass st _ ih =>
    exact foldl_passNode_nodup _ _ ih

/-- C7 witness: a concrete reachable state — one node, one matching driver
registered — whose binding table has pairwise distinct node paths. -/
theorem binding_unique_witness :
    (((registerDriver (initDrvState [⟨"/soc/usb", ["acme,usb"]⟩] 3)
        ⟨"usbdrv", ["acme,usb"], none, [], []⟩).2).bindings.map (·.nodePath)).Nodup :=
  binding_unique _ (DReach.register _ _ (DReach.init _ _ (by decide)))

/-! ## Matcher selection lemmas -/

theorem find?_split {α : Type} {p : α → Bool} :
    ∀ {l : List α} {a : α}, l.find? p = some a →
      ∃ l1 l2, l = l1 ++ a :: l2 ∧ ∀ x ∈ l1, p x = false := by
  intro l
  induction l with
  | nil => intro a h; simp at h
  | cons x t ih =>
    intro a h
    by_cases hx : p x = true
    · rw [List.find?_cons_of_pos _ hx] at h
      have hxa : x = a := by simpa using h
      subst hxa
      exact ⟨[], t, rfl, by simp⟩
    · rw [List.find?_cons_of_neg _ hx] at h
      obtain ⟨l1, l2, he, hall⟩ := ih h
      refine ⟨x :: l1, l2, by rw [he]; rfl, ?_⟩
      intro y hy
      rcases List.mem_cons.mp hy with h1 | h2
      · rw [h1]
        cases hpx : p x with
        | true => exact absurd hpx hx
        | false => rfl
      · exact hall y h2

theorem selectCandidate_spec (ds : List Driver) (failed : List (String × String))
    (path : String) :
    ∀ (cs : List String) (i0 : Nat) (d : Driver) (i : Nat),
      selectCandidate ds failed path cs i0 = some (d, i) →
      i0 ≤ i ∧ ∃ c, cs[i - i0]? = some c ∧
        ds.find? (fun dd => driverMatches dd c && !(failed.contains (path, dd.dname)))
          = some d ∧
        ∀ j, j < i - i0 → ∀ c', cs[j]? = some c' →
          ds.find? (fun dd => driverMatches dd c' && !(failed.contains (path, dd.dname)))
            = none := by
  intro cs
  induction cs with
  | nil => intro i0 d i h; simp [selectCandidate] at h
  | cons c rest ih =>
    intro i0 d i h
    unfold selectCandidate at h
    rcases hf : ds.find?
        (fun dd => driverMatches dd c && !(failed.contains (path, dd.dname))) with _ | d0
    · rw [hf] at h
      dsimp only at h
      obtain ⟨h1, c2, hc2, hfind, hprev⟩ := ih (i0 + 1) d i h
      refine ⟨by omega, c2, ?_, hfind, ?_⟩
      · have hidx : i - i0 = (i - (i0 + 1)) + 1 := by omega
        rw [hidx]
        simpa using hc2
      · intro j hj c' hc'
        cases j with
        | zero =>
          have hcc : c = c' := by simpa using hc'
          rw [← hcc]
          exact hf
        | succ j' =>
          apply hprev j' (by omega) c'
          simpa using hc'
    · rw [hf] at h
      dsimp only at h
      have h2 : d0 = d ∧ i0 = i := by simpa using h
      obtain ⟨hd0, hi0⟩ := h2
      subst hd0
      subst hi0
      refine ⟨le_rfl, c, ?_, hf, ?_⟩
      · simp [Nat.sub_self]
      · intro j hj
        omega

theorem selectCandidate_isSome (ds : List Driver) (failed : List (String × String))
    (path : String) :
    ∀ (cs : List String) (i0 : Nat),
      (∃ c ∈ cs, ∃ d ∈ ds, driverMatches d c = true ∧
        failed.contains (path, d.dname) = false) →
      (selectCandidate ds failed path cs i0).isSome = true := by
  intro cs
  induction cs with
  | nil =>
    intro i0 h
    obtain ⟨c, hc, -⟩ := h
    simp at hc
  | cons c rest ih =>
    intro i0 h
    unfold selectCandidate
    rcases hf : ds.find?
        (fun dd => driverMatches dd c && !(failed.contains (path, dd.dname))) with _ | d0
    · dsimp only
      obtain ⟨c0, hc0, d, hd, hdm, hdc⟩ := h
      rcases List.mem_cons.mp hc0 with h1 | h2
      · exfalso
        have hnone := List.find?_eq_none.mp hf d hd
        rw [← h1] at hnone
        exact hnone (by rw [hdm, hdc]; rfl)
      · exact ih (i0 + 1) ⟨c0, h2, d, hd, hdm, hdc⟩
    · simp

/-- C1: for every device node and driver registry in which every probe for
the node succeeds and some driver matches some compatible entry, the Matcher
binds the node to the first registered driver matching the node's most
specific matched compatible entry: no driver at all matches any earlier
(more specific) entry, and no earlier-registered driver matches the winning
entry — so a driver matching a more specific entry always wins over one
matching a more generic entry, regardless of registration order. -/
theorem matcher_specificity (ds : List Driver) (n : DeviceNode)
    (hprobe : ∀ d ∈ ds, probeOf d n.path = .ok)
    (hmatch : ∃ c ∈ n.compatible, ∃ d ∈ ds, driverMatches d c = true) :
    ∃ (d : Driver) (i : Nat) (c : String),
      matchAttempt ds n.path n.compatible (attemptFuel ds) [] = (.bound d, []) ∧
      d ∈ ds ∧ n.compatible[i]? = some c ∧ driverMatches d c = true ∧
      (∀ j, j < i → ∀ c', n.compatible[j]? = some c' →
        ∀ d' ∈ ds, driverMatches d' c' = false) ∧
      (∃ pre post, ds = pre ++ d :: post ∧ ∀ d' ∈ pre, driverMatches d' c = false) := by
  have hmatch' : ∃ c ∈ n.compatible, ∃ d ∈ ds, driverMatches d c = true ∧
      ([] : List (String × String)).contains (n.path, d.dname) = false := by
    obtain ⟨c, hc, d, hd, hdm⟩ := hmatch
    exact ⟨c, hc, d, hd, hdm, rfl⟩
  have hsome := selectCandidate_isSome ds [] n.path n.compatible 0 hmatch'
  rcases hsel : selectCandidate ds [] n.path n.compatible 0 with _ | di
  · rw [hsel] at hsome; simp at hsome
  · obtain ⟨d, i⟩ := di
    obtain ⟨h0i, c, hc, hfind, hprev⟩ :=
      selectCandidate_spec ds [] n.path n.compatible 0 d i hsel
    have hdmem : d ∈ ds := List.mem_of_find?_eq_some hfind
    have hdm : driverMatches d c = true := by
      have := List.find?_some hfind
      simpa using this
    refine ⟨d, i, c, ?_, hdmem, by simpa using hc, hdm, ?_, ?_⟩
    · show matchAttempt ds n.path n.compatible (ds.length + 1) [] = (.bound d, [])
      unfold matchAttempt
      rw [hsel]
      dsimp only
      rw [hprobe d hdmem]
    · intro j hj c' hc' d' hd'
      have hnone := hprev j (by simpa using hj) c' hc'
      have hx := List.find?_eq_none.mp hnone d' hd'
      cases hdm' : driverMatches d' c' with
      | false => rfl
      | true => exact absurd (by simp [hdm']) hx
    · obtain ⟨pre, post, hsplit, hall⟩ := find?_split hfind
      refine ⟨pre, post, hsplit, ?_⟩
      intro d' hd'
      have := hall d' hd'
      simpa using this

/-- C1 witness: a node advertising `acme,widget-v2` before `acme,widget`
binds to the driver matching the specific entry even though the driver for
the generic entry registered first. -/
theorem matcher_specificity_witness :
    ∃ (d : Driver) (i : Nat) (c : String),
      matchAttempt [⟨"gen", ["acme,widget"], none, [], []⟩,
          ⟨"spec", ["acme,widget-v2"], none, [], []⟩]
        "/n" ["acme,widget-v2", "acme,widget"]
        (attemptFuel [⟨"gen", ["acme,widget"], none, [], []⟩,
          ⟨"spec", ["acme,widget-v2"], none, [], []⟩]) [] = (.bound d, []) ∧
      d ∈ [⟨"gen", ["acme,widget"], none, [], []⟩,
          (⟨"spec", ["acme,widget-v2"], none, [], []⟩ : Driver)] ∧
      (["acme,widget-v2", "acme,widget"] : List String)[i]? = some c ∧
      driverMatches d c = true ∧
      (∀ j, j < i → ∀ c', (["acme,widget-v2", "acme,widget"] : List String)[j]? = some c' →
        ∀ d' ∈ [⟨"gen", ["acme,widget"], none, [], []⟩,
          (⟨"spec", ["acme,widget-v2"], none, [], []⟩ : Driver)],
          driverMatches d' c' = false) ∧
      (∃ pre post, [⟨"gen", ["acme,widget"], none, [], []⟩,
          (⟨"spec", ["acme,widget-v2"], none, [], []⟩ : Driver)] = pre ++ d :: post ∧
        ∀ d' ∈ pre, driverMatches d' c = false) :=
  matcher_specificity _ ⟨"/n", ["acme,widget-v2", "acme,widget"]⟩
    (by decide) (by decide)

/-! ## Locality of a matching pass with respect to other node paths -/

theorem find?_path_map (p p2 : String) (ne : DeferredEntry) (hne2 : ne.nodePath = p2)
    (hp : p ≠ p2) :
    ∀ t : List DeferredEntry,
      (t.map (fun x => if x.nodePath = p2 then ne else x)).find? (·.nodePath = p) =
      t.find? (·.nodePath = p) := by
  intro t
  induction t with
  | nil => rfl
  | cons x t ih =>
    rw [List.map_cons]
    by_cases hx : x.nodePath = p2
    · rw [if_pos hx]
      have hxp : ¬(x.nodePath = p) := by rw [hx]; exact Ne.symm hp
      rw [List.find?_cons_of_neg _ (by simp [hne2, Ne.symm hp]),
        List.find?_cons_of_neg _ (by simp [hxp])]
      exact ih
    · rw [if_neg hx]
      by_cases hxp : x.nodePath = p
      · rw [List.find?_cons_of_pos _ (by simp [hxp]),
          List.find?_cons_of_pos _ (by simp [hxp])]
      · rw [List.find?_cons_of_neg _ (by simp [hxp]),
          List.find?_cons_of_neg _ (by simp [hxp])]
        exact ih

theorem lookupDeferred_upsert_ne (q : List DeferredEntry) (p2 : String) (rr : DeferReason)
    (p : String) (hne : p ≠ p2) :
    lookupDeferred (upsertDeferred q p2 rr) p = lookupDeferred q p := by
  unfold upsertDeferred
  rcases hl : lookupDeferred q p2 with _ | e0
  · unfold lookupDeferred
    rw [List.find?_append]
    rcases hq : q.find? (fun x => decide (x.nodePath = p)) with _ | e1
    · rw [hq]
      simp [List.find?, Ne.symm hne]
    · rw [hq]; simp
  · dsimp only
    exact find?_path_map p p2 ⟨p2, rr, e0.attempts + 1⟩ rfl hne q

theorem lookupDeferred_remove_ne (q : List DeferredEntry) (p2 p : String) (hne : p ≠ p2) :
    lookupDeferred (removeDeferred q p2) p = lookupDeferred q p := by
  unfold removeDeferred lookupDeferred
  induction q with
  | nil => rfl
  | cons x t ih =>
    by_cases hx : x.nodePath = p2
    · rw [List.filter_cons_of_neg (by simp [hx])]
      have hxp : ¬(x.nodePath = p) := by rw [hx]; exact Ne.symm hne
      rw [List.find?_cons_of_neg _ (by simp [hxp])]
      exact ih
    · rw [List.filter_cons_of_pos (by simp [hx])]
      by_cases hxp : x.nodePath = p
      · rw [List.find?_cons_of_pos _ (by simp [hxp]),
          List.find?_cons_of_pos _ (by simp [hxp])]
      · rw [List.find?_cons_of_neg _ (by simp [hxp]),
          List.find?_cons_of_neg _ (by simp [hxp])]
        exact ih

theorem isBound_other {st : DrvState} {n2 : DeviceNode} {p : String}
    (hne : n2.path ≠ p) : isBound (passNode st n2) p = isBound st p := by
  unfold isBound
  obtain ⟨-, -, -, hb1, hb2, -, -⟩ := passNode_parts st n2
  cases hB : st.bindings.any (·.nodePath = p) with
  | true =>
    obtain ⟨b, hbm, hbp⟩ := List.any_eq_true.mp hB
    exact List.any_eq_true.mpr ⟨b, hb1 b hbm, hbp⟩
  | false =>
    cases hB2 : (passNode st n2).bindings.any (·.nodePath = p) with
    | false => rfl
    | true =>
      exfalso
      obtain ⟨b, hbm, hbp⟩ := List.any_eq_true.mp hB2
      rcases hb2 b hbm with h1 | h2
      · have : st.bindings.any (·.nodePath = p) = true := List.any_eq_true.mpr ⟨b, h1, hbp⟩
        rw [this] at hB; cases hB
      · simp only [decide_eq_true_eq] at hbp
        rw [hbp] at h2
        exact hne h2.symm

theorem passNode_lookup_other {st : DrvState} {n2 : DeviceNode} {p : String}
    (hne : n2.path ≠ p) :
    lookupDeferred (passNode st n2).deferredQ p = lookupDeferred st.deferredQ p := by
  unfold passNode
  by_cases hb : isBound st n2.path = true
  · rw [if_pos hb]
  · rw [if_neg hb]
    have hcore : lookupDeferred (passNodeCore st n2).deferredQ p =
        lookupDeferred st.deferredQ p := by
      unfold passNodeCore
      rcases hma : matchAttempt st.drivers n2.path n2.compatible (attemptFuel st.drivers)
        st.failedPairs with ⟨out, f'⟩
      cases out with
      | bound d => exact lookupDeferred_remove_ne _ _ _ (Ne.symm hne)
      | deferredP d => exact lookupDeferred_upsert_ne _ _ _ _ (Ne.symm hne)
      | noDriver => exact lookupDeferred_upsert_ne _ _ _ _ (Ne.symm hne)
    rcases hld : lookupDeferred st.deferredQ n2.path with _ | e
    · exact hcore
    · dsimp only
      by_cases hatt : st.retryBound ≤ e.attempts
      · rw [if_pos hatt]
      · rw [if_neg hatt]; exact hcore

theorem passNode_failed_other {st : DrvState} {n2 : DeviceNode} {p : String}
    (hne : n2.path ≠ p) :
    ∀ q : String × String, q.1 = p →
      (q ∈ (passNode st n2).failedPairs ↔ q ∈ st.failedPairs) := by
  intro q hq
  obtain ⟨-, -, -, -, -, hf1, hf2⟩ := passNode_parts st n2
  constructor
  · intro hmem
    rcases hf2 q hmem with h1 | h2
    · exact h1
    · exfalso; rw [hq] at h2; exact hne h2.symm
  · exact hf1 q

theorem foldl_other (p : String) :
    ∀ (ns : List DeviceNode), (∀ n2 ∈ ns, n2.path ≠ p) →
    ∀ st : DrvState,
      isBound (ns.foldl passNode st) p = isBound st p ∧
      lookupDeferred (ns.foldl passNode st).deferredQ p = lookupDeferred st.deferredQ p ∧
      (∀ q : String × String, q.1 = p →
        (q ∈ (ns.foldl passNode st).failedPairs ↔ q ∈ st.failedPairs)) := by
  intro ns
  induction ns with
  | nil => intro _ st; exact ⟨rfl, rfl, fun q _ => Iff.rfl⟩
  | cons n2 rest ih =>
    intro hne st
    have hn2 : n2.path ≠ p := hne n2 (List.mem_cons_self _ _)
    obtain ⟨ih1, ih2, ih3⟩ :=
      ih (fun n3 h3 => hne n3 (List.mem_cons_of_mem _ h3)) (passNode st n2)
    rw [List.foldl_cons]
    refine ⟨?_, ?_, ?_⟩
    · rw [ih1, isBound_other hn2]
    · rw [ih2, passNode_lookup_other hn2]
    · intro q hq
      rw [ih3 q hq]
      exact passNode_failed_other hn2 q hq

/-- Evaluation of one matching-pass step when the node is unbound, below the
retry bound, and the selected candidate's probe succeeds. -/
theorem passNode_eval_bound (stA : DrvState) (n : DeviceNode) (e : DeferredEntry)
    (dw : Driver) (i : Nat)
    (h1 : isBound stA n.path = false)
    (h2 : lookupDeferred stA.deferredQ n.path = some e)
    (h3 : ¬stA.retryBound ≤ e.attempts)
    (h4 : selectCandidate stA.drivers stA.failedPairs n.path n.compatible 0 = some (dw, i))
    (h5 : probeOf dw n.path = .ok) :
    passNode stA n = { stA with
      bindings := ((⟨n.path, dw.dname⟩ : Binding) :: stA.bindings),
      deferredQ := removeDeferred stA.deferredQ n.path,
      failedPairs := stA.failedPairs } := by
  unfold passNode
  rw [if_neg (by simp [h1]), h2]
  dsimp only
  rw [if_neg h3]
  unfold passNodeCore
  have hfx : attemptFuel stA.drivers = stA.drivers.length + 1 := rfl
  rw [hfx]
  unfold matchAttempt
  rw [h4]
  dsimp only
  rw [h5]

/-- C6: a device node sitting in the deferred-probe queue with reason
`NoDriver` (below the retry bound, unbound, with no fatally-failed pairs for
it) gets a Binding as soon as a driver whose match table matches one of its
compatible strings registers successfully and every probe for the node
succeeds: registration itself runs the matching pass over unbound nodes and
queue entries, with no external re-submission of the node. -/
theorem deferred_retry (st : DrvState) (d : Driver) (n : DeviceNode)
    (hn : n ∈ st.nodes)
    (hnodes : (st.nodes.map (·.path)).Nodup)
    (hunbound : isBound st n.path = false)
    (hdef : ∃ e, lookupDeferred st.deferredQ n.path = some e ∧ e.reason = .NoDriver ∧
      e.attempts < st.retryBound)
    (hnofail : ∀ q ∈ st.failedPairs, q.1 ≠ n.path)
    (hprobe : ∀ d' ∈ st.drivers ++ [d], probeOf d' n.path = .ok)
    (hmatch : ∃ c ∈ n.compatible, driverMatches d c = true)
    (hreg : (registerDriver st d).1 = .ok ()) :
    ∃ b ∈ (registerDriver st d).2.bindings, b.nodePath = n.path := by
  obtain ⟨drvs, nodes0, binds, defq, fps, rb⟩ := st
  obtain ⟨pre, post, hnodes_eq⟩ := List.append_of_mem hn
  have hnodes_eq' : nodes0 = pre ++ n :: post := hnodes_eq
  subst hnodes_eq'
  have hg1 : drvs.any (·.dname = d.dname) = false := by
    rcases hb : drvs.any (·.dname = d.dname) with _ | _
    · rfl
    · exfalso
      unfold registerDriver at hreg
      rw [if_pos hb] at hreg
      cases hreg
  have hg2 : drvs.any (fun d0 => driversConflict d0 d) = false := by
    rcases hb : drvs.any (fun d0 => driversConflict d0 d) with _ | _
    · rfl
    · exfalso
      unfold registerDriver at hreg
      rw [if_neg (by simp [hg1]), if_pos hb] at hreg
      cases hreg
  have hsnd : (registerDriver ⟨drvs, pre ++ n :: post, binds, defq, fps, rb⟩ d).2 =
      matchingPass ⟨drvs ++ [d], pre ++ n :: post, binds, defq, fps, rb⟩ := by
    unfold registerDriver
    rw [if_neg (by simp [hg1]), if_neg (by simp [hg2])]
  rw [hsnd]
  have hpre_ne : ∀ n2 ∈ pre, n2.path ≠ n.path := by
    intro n2 h2 he
    have hnodes2 : ((pre ++ n :: post).map (fun x => x.path)).Nodup := hnodes
    rw [List.map_append, List.map_cons] at hnodes2
    have hd2 := List.nodup_append.mp hnodes2
    exact (hd2.2.2 (List.mem_map_of_mem _ h2)) (by rw [he]; exact List.mem_cons_self _ _)
  unfold matchingPass
  show ∃ b ∈ (((pre ++ n :: post).foldl passNode
    (⟨drvs ++ [d], pre ++ n :: post, binds, defq, fps, rb⟩ : DrvState)).bindings),
    b.nodePath = n.path
  rw [List.foldl_append, List.foldl_cons]
  obtain ⟨hA_bound, hA_lookup, hA_failed⟩ :=
    foldl_other n.path pre hpre_ne ⟨drvs ++ [d], pre ++ n :: post, binds, defq, fps, rb⟩
  obtain ⟨hA_drv, -, hA_retry0, -⟩ :=
    foldl_passNode_parts pre ⟨drvs ++ [d], pre ++ n :: post, binds, defq, fps, rb⟩
  obtain ⟨e, he_lookup, he_reason, he_att⟩ := hdef
  have hA_bound' : isBound (pre.foldl passNode
      ⟨drvs ++ [d], pre ++ n :: post, binds, defq, fps, rb⟩) n.path = false := by
    rw [hA_bound]; exact hunbound
  have hA_lookup' : lookupDeferred (pre.foldl passNode
      ⟨drvs ++ [d], pre ++ n :: post, binds, defq, fps, rb⟩).deferredQ n.path = some e := by
    rw [hA_lookup]; exact he_lookup
  have hA_drivers : (pre.foldl passNode
      ⟨drvs ++ [d], pre ++ n :: post, binds, defq, fps, rb⟩).drivers = drvs ++ [d] := hA_drv
  have hA_retry : (pre.foldl passNode
      ⟨drvs ++ [d], pre ++ n :: post, binds, defq, fps, rb⟩).retryBound = rb := hA_retry0
  have hA_failed' : ∀ x : String, (pre.foldl passNode
      ⟨drvs ++ [d], pre ++ n :: post, binds, defq, fps, rb⟩).failedPairs.contains
        (n.path, x) = false := by
    intro x
    rcases hb : (pre.foldl passNode
        ⟨drvs ++ [d], pre ++ n :: post, binds, defq, fps, rb⟩).failedPairs.contains
          (n.path, x) with _ | _
    · rfl
    · exfalso
      have hmem : (n.path, x) ∈ (pre.foldl passNode
          ⟨drvs ++ [d], pre ++ n :: post, binds, defq, fps, rb⟩).failedPairs :=
        List.elem_iff.mp hb
      have := (hA_failed (n.path, x) rfl).mp hmem
      exact hnofail (n.path, x) this rfl
  have hsome := selectCandidate_isSome
    (pre.foldl passNode ⟨drvs ++ [d], pre ++ n :: post, binds, defq, fps, rb⟩).drivers
    (pre.foldl passNode ⟨drvs ++ [d], pre ++ n :: post, binds, defq, fps, rb⟩).failedPairs
    n.path n.compatible 0
    (by
      obtain ⟨c, hc, hdm⟩ := hmatch
      refine ⟨c, hc, d, ?_, hdm, hA_failed' d.dname⟩
      rw [hA_drivers]
      exact List.mem_append_right _ (List.mem_singleton_self _))
  rcases hsel : selectCandidate
      (pre.foldl passNode ⟨drvs ++ [d], pre ++ n :: post, binds, defq, fps, rb⟩).drivers
      (pre.foldl passNode ⟨drvs ++ [d], pre ++ n :: post, binds, defq, fps, rb⟩).failedPairs
      n.path n.compatible 0 with _ | di
  · rw [hsel] at hsome; simp at hsome
  · obtain ⟨dw, i⟩ := di
    obtain ⟨-, c0, -, hfindw, -⟩ := selectCandidate_spec _ _ _ _ 0 dw i hsel
    have hdw_mem : dw ∈ (pre.foldl passNode
        ⟨drvs ++ [d], pre ++ n :: post, binds, defq, fps, rb⟩).drivers :=
      List.mem_of_find?_eq_some hfindw
    have hdw_probe : probeOf dw n.path = .ok := by
      apply hprobe
      rw [← hA_drivers]
      exact hdw_mem
    have hstep := passNode_eval_bound
      (pre.foldl passNode ⟨drvs ++ [d], pre ++ n :: post, binds, defq, fps, rb⟩) n e dw i
      hA_bound' hA_lookup' (by rw [hA_retry]; exact Nat.not_le.mpr he_att) hsel hdw_probe
    rw [hstep]
    obtain ⟨-, -, -, hbind, -, -, -⟩ := foldl_passNode_parts post
      { (pre.foldl passNode ⟨drvs ++ [d], pre ++ n :: post, binds, defq, fps, rb⟩) with
        bindings := ((⟨n.path, dw.dname⟩ : Binding) ::
          (pre.foldl passNode
            ⟨drvs ++ [d], pre ++ n :: post, binds, defq, fps, rb⟩).bindings),
        deferredQ := removeDeferred (pre.foldl passNode
          ⟨drvs ++ [d], pre ++ n :: post, binds, defq, fps, rb⟩).deferredQ n.path,
        failedPairs := (pre.foldl passNode
          ⟨drvs ++ [d], pre ++ n :: post, binds, defq, fps, rb⟩).failedPairs }
    exact ⟨⟨n.path, dw.dname⟩, hbind _ (List.mem_cons_self _ _), rfl⟩

/-- C6 witness: a node deferred with `NoDriver`; registering a matching
driver afterwards produces its binding without external re-submission. -/
theorem deferred_retry_witness :
    ∃ b ∈ (registerDriver
        ⟨[], [⟨"/soc/usb", ["acme,usb"]⟩], [], [⟨"/soc/usb", .NoDriver, 1⟩], [], 5⟩
        ⟨"usbdrv", ["acme,usb"], none, [], []⟩).2.bindings,
      b.nodePath = "/soc/usb" :=
  deferred_retry _ _ ⟨"/soc/usb", ["acme,usb"]⟩ (by decide) (by decide) (by decide)
    ⟨⟨"/soc/usb", .NoDriver, 1⟩, by decide, by decide, by decide⟩
    (by decide) (by decide) ⟨"acme,usb", by decide, by decide⟩ rfl

/-! ## Matching-pass determinism -/

/-- Two pointwise-equal predicates find the same first element. -/
theorem find?_pred_congr {α : Type} (p q : α → Bool) (h : ∀ x, p x = q x)
    (l : List α) : l.find? p = l.find? q := by
  have hpq : p = q := funext h
  rw [hpq]

/-- Candidate selection only reads the failed pairs whose first component is
the node's path, so two failed-pair lists agreeing there select identically. -/
theorem selectCandidate_congr (ds : List Driver) (f1 f2 : List (String × String))
    (path : String)
    (h : ∀ x : String, f1.contains (path, x) = f2.contains (path, x)) :
    ∀ (cs : List String) (i : Nat),
      selectCandidate ds f1 path cs i = selectCandidate ds f2 path cs i := by
  intro cs
  induction cs with
  | nil => intro i; rfl
  | cons c rest ih =>
    intro i
    unfold selectCandidate
    have hfind : ds.find? (fun d => driverMatches d c && !(f1.contains (path, d.dname)))
        = ds.find? (fun d => driverMatches d c && !(f2.contains (path, d.dname))) :=
      find?_pred_congr _ _ (fun d => by rw [h d.dname]) ds
    rw [hfind]
    rcases hf : ds.find? (fun d => driverMatches d c && !(f2.contains (path, d.dname)))
        with _ | d0
    · dsimp only
      exact ih (i + 1)
    · rfl

/-- A filter by a stronger predicate is no longer than one by a weaker. -/
theorem filter_length_mono {α : Type} (p q : α → Bool)
    (hpq : ∀ x, q x = true → p x = true) :
    ∀ l : List α, (l.filter q).length ≤ (l.filter p).length := by
  intro l
  induction l with
  | nil => exact Nat.le_refl 0
  | cons x t ih =>
    cases hq : q x with
    | true =>
      rw [List.filter_cons_of_pos hq, List.filter_cons_of_pos (hpq x hq)]
      exact Nat.succ_le_succ ih
    | false =>
      rw [List.filter_cons_of_neg (by simp [hq])]
      cases hp : p x with
      | true =>
        rw [List.filter_cons_of_pos hp]
        exact Nat.le_succ_of_le ih
      | false =>
        rw [List.filter_cons_of_neg (by simp [hp])]
        exact ih

/-- A filter by a stronger predicate is strictly shorter when some member
satisfies the weaker predicate but not the stronger. -/
theorem filter_length_lt {α : Type} (p q : α → Bool)
    (hpq : ∀ x, q x = true → p x = true) :
    ∀ (l : List α) (d : α), d ∈ l → p d = true → q d = false →
      (l.filter q).length < (l.filter p).length := by
  intro l
  induction l with
  | nil => intro d hd; cases hd
  | cons x t ih =>
    intro d hd hp hq
    rcases List.mem_cons.mp hd with h1 | h2
    · subst h1
      rw [List.filter_cons_of_pos hp, List.filter_cons_of_neg (by simp [hq])]
      exact Nat.lt_succ_of_le (filter_length_mono p q hpq t)
    · cases hqx : q x with
      | true =>
        rw [List.filter_cons_of_pos hqx, List.filter_cons_of_pos (hpq x hqx)]
        exact Nat.succ_lt_succ (ih d h2 hp hq)
      | false =>
        rw [List.filter_cons_of_neg (by simp [hqx])]
        cases hpx : p x with
        | true =>
          rw [List.filter_cons_of_pos hpx]
          exact Nat.lt_succ_of_lt (ih d h2 hp hq)
        | false =>
          rw [List.filter_cons_of_neg (by simp [hpx])]
          exact ih d h2 hp hq

/-- A successful selection strictly shrinks the node's free-driver count when
its pair is added to the failed list: the winner was free and no longer is. -/
theorem select_freeCount_lt (ds : List Driver) (f : List (String × String))
    (path : String) (cs : List String) (i0 : Nat) (d : Driver) (j : Nat)
    (h : selectCandidate ds f path cs i0 = some (d, j)) :
    (ds.filter
      (fun dd => !(((path, d.dname) :: f).contains (path, dd.dname)))).length
      < (ds.filter (fun dd => !(f.contains (path, dd.dname)))).length := by
  obtain ⟨-, c, -, hfind, -⟩ := selectCandidate_spec ds f path cs i0 d j h
  have hdmem : d ∈ ds := List.mem_of_find?_eq_some hfind
  have hcond := List.find?_some hfind
  simp only [Bool.and_eq_true, Bool.not_eq_true'] at hcond
  apply filter_length_lt _ _ ?_ ds d hdmem ?_ ?_
  · intro x hx
    simp only [Bool.not_eq_true', List.contains_cons, Bool.or_eq_false_iff] at hx
    simp only [Bool.not_eq_true']
    exact hx.2
  · simp only [Bool.not_eq_true']
    exact hcond.2
  · simp [List.contains_cons]

/-- With fuel above the node's free-driver count, a matching attempt ends in
one of three terminal shapes: no candidate selects under the final failed
list, the selected candidate's probe defers, or some driver gets bound; the
first two leave the failed list at its final value. -/
theorem matchAttempt_terminal (ds : List Driver) (path : String) (cs : List String) :
    ∀ (fuel : Nat) (f : List (String × String)) (o : MatchOutcome)
      (f' : List (String × String)),
      (ds.filter (fun dd => !(f.contains (path, dd.dname)))).length < fuel →
      matchAttempt ds path cs fuel f = (o, f') →
      (o = .noDriver ∧ selectCandidate ds f' path cs 0 = none) ∨
      (∃ d i, o = .deferredP d ∧ selectCandidate ds f' path cs 0 = some (d, i) ∧
        probeOf d path = .deferredR) ∨
      (∃ d, o = .bound d) := by
  intro fuel
  induction fuel with
  | zero =>
    intro f o f' hlt h
    exact absurd hlt (Nat.not_lt_zero _)
  | succ fuel ih =>
    intro f o f' hlt h
    unfold matchAttempt at h
    rcases hsel : selectCandidate ds f path cs 0 with _ | di
    · rw [hsel] at h
      cases h
      exact Or.inl ⟨rfl, hsel⟩
    · rw [hsel] at h
      obtain ⟨d, i⟩ := di
      dsimp only at h
      rcases hp : probeOf d path with _ | _ | _
      · rw [hp] at h
        cases h
        exact Or.inr (Or.inr ⟨d, rfl⟩)
      · rw [hp] at h
        cases h
        exact Or.inr (Or.inl ⟨d, i, rfl, hsel, hp⟩)
      · rw [hp] at h
        apply ih ((path, d.dname) :: f) o f' ?_ h
        have hdec := select_freeCount_lt ds f path cs 0 d i hsel
        omega

/-- After a pass step that ran the node's matching attempt, and after the
remaining (different-path) nodes are processed, the node is either bound or a
fresh matching attempt against the final state terminates without binding and
without touching the failed list. -/
theorem pass_settled_core (B : DrvState) (n : DeviceNode) (post : List DeviceNode)
    (hpost_ne : ∀ m ∈ post, m.path ≠ n.path)
    (hpn : passNode B n = passNodeCore B n) :
    isBound (post.foldl passNode (passNode B n)) n.path = true ∨
    matchAttempt (post.foldl passNode (passNode B n)).drivers n.path n.compatible
      (attemptFuel (post.foldl passNode (passNode B n)).drivers)
      (post.foldl passNode (passNode B n)).failedPairs
      = (.noDriver, (post.foldl passNode (passNode B n)).failedPairs) ∨
    (∃ d, matchAttempt (post.foldl passNode (passNode B n)).drivers n.path n.compatible
      (attemptFuel (post.foldl passNode (passNode B n)).drivers)
      (post.foldl passNode (passNode B n)).failedPairs
      = (.deferredP d, (post.foldl passNode (passNode B n)).failedPairs)) := by
  rcases hma : matchAttempt B.drivers n.path n.compatible (attemptFuel B.drivers)
    B.failedPairs with ⟨o, f'⟩
  have hfuel : (B.drivers.filter
      (fun dd => !(B.failedPairs.contains (n.path, dd.dname)))).length
      < attemptFuel B.drivers :=
    Nat.lt_succ_of_le (List.length_filter_le _ _)
  obtain ⟨hO1, -, hO3⟩ := foldl_other n.path post hpost_ne (passNode B n)
  obtain ⟨hD, -, -, -, -, -, -⟩ := foldl_passNode_parts post (passNode B n)
  rcases matchAttempt_terminal B.drivers n.path n.compatible (attemptFuel B.drivers)
      B.failedPairs o f' hfuel hma with ⟨ho, hselnone⟩ | ⟨d, i, ho, hsel, hprobe⟩ | ⟨d, ho⟩
  · subst ho
    have hcore : passNodeCore B n = { B with
        deferredQ := upsertDeferred B.deferredQ n.path .NoDriver,
        failedPairs := f' } := by
      unfold passNodeCore
      rw [hma]
    have hDrv : (post.foldl passNode (passNode B n)).drivers = B.drivers := by
      rw [hD, hpn, hcore]
    have hpnf : (passNode B n).failedPairs = f' := by rw [hpn, hcore]
    have hFail : ∀ x : String,
        (post.foldl passNode (passNode B n)).failedPairs.contains (n.path, x)
          = f'.contains (n.path, x) := by
      intro x
      have h3 := hO3 (n.path, x) rfl
      rw [hpnf] at h3
      cases hc2 : f'.contains (n.path, x) with
      | true => exact List.elem_iff.mpr (h3.mpr (List.elem_iff.mp hc2))
      | false =>
        cases hc1 : (post.foldl passNode (passNode B n)).failedPairs.contains
            (n.path, x) with
        | false => rfl
        | true =>
          have hx : f'.contains (n.path, x) = true :=
            List.elem_iff.mpr (h3.mp (List.elem_iff.mp hc1))
          rw [hc2] at hx
          cases hx
    have hsel2 : selectCandidate (post.foldl passNode (passNode B n)).drivers
        (post.foldl passNode (passNode B n)).failedPairs n.path n.compatible 0
        = none := by
      rw [hDrv,
        selectCandidate_congr B.drivers _ f' n.path hFail n.compatible 0]
      exact hselnone
    refine Or.inr (Or.inl ?_)
    have hfx : attemptFuel (post.foldl passNode (passNode B n)).drivers
        = (post.foldl passNode (passNode B n)).drivers.length + 1 := rfl
    rw [hfx]
    unfold matchAttempt
    rw [hsel2]
  · subst ho
    have hcore : passNodeCore B n = { B with
        deferredQ := upsertDeferred B.deferredQ n.path .ProbeDeferred,
        failedPairs := f' } := by
      unfold passNodeCore
      rw [hma]
    have hDrv : (post.foldl passNode (passNode B n)).drivers = B.drivers := by
      rw [hD, hpn, hcore]
    have hpnf : (passNode B n).failedPairs = f' := by rw [hpn, hcore]
    have hFail : ∀ x : String,
        (post.foldl passNode (passNode B n)).failedPairs.contains (n.path, x)
          = f'.contains (n.path, x) := by
      intro x
      have h3 := hO3 (n.path, x) rfl
      rw [hpnf] at h3
      cases hc2 : f'.contains (n.path, x) with
      | true => exact List.elem_iff.mpr (h3.mpr (List.elem_iff.mp hc2))
      | false =>
        cases hc1 : (post.foldl passNode (passNode B n)).failedPairs.contains
            (n.path, x) with
        | false => rfl
        | true =>
          have hx : f'.contains (n.path, x) = true :=
            List.elem_iff.mpr (h3.mp (List.elem_iff.mp hc1))
          rw [hc2] at hx
          cases hx
    have hsel2 : selectCandidate (post.foldl passNode (passNode B n)).drivers
        (post.foldl passNode (passNode B n)).failedPairs n.path n.compatible 0
        = some (d, i) := by
      rw [hDrv,
        selectCandidate_congr B.drivers _ f' n.path hFail n.compatible 0]
      exact hsel
    refine Or.inr (Or.inr ⟨d, ?_⟩)
    have hfx : attemptFuel (post.foldl passNode (passNode B n)).drivers
        = (post.foldl passNode (passNode B n)).drivers.length + 1 := rfl
    rw [hfx]
    unfold matchAttempt
    rw [hsel2]
    dsimp only
    rw [hprobe]
  · subst ho
    have hcore : passNodeCore B n = { B with
        bindings := ((⟨n.path, d.dname⟩ : Binding) :: B.bindings),
        deferredQ := removeDeferred B.deferredQ n.path,
        failedPairs := f' } := by
      unfold passNodeCore
      rw [hma]
    left
    rw [hO1, hpn, hcore]
    show ((⟨n.path, d.dname⟩ : Binding) :: B.bindings).any (·.nodePath = n.path) = true
    simp

/-- A pass step skips a node that is already bound. -/
theorem passNode_eval_skip_bound (stA : DrvState) (n : DeviceNode)
    (h : isBound stA n.path = true) : passNode stA n = stA := by
  unfold passNode
  rw [if_pos h]

/-- A pass step skips a node whose deferred entry reached the retry bound. -/
theorem passNode_eval_skip_cap (stA : DrvState) (n : DeviceNode) (e : DeferredEntry)
    (h1 : isBound stA n.path = false)
    (h2 : lookupDeferred stA.deferredQ n.path = some e)
    (h3 : stA.retryBound ≤ e.attempts) : passNode stA n = stA := by
  unfold passNode
  rw [if_neg (by simp [h1]), h2]
  dsimp only
  rw [if_pos h3]

/-- A pass step runs the matching attempt on an unbound, unqueued node. -/
theorem passNode_eval_core_none (stA : DrvState) (n : DeviceNode)
    (h1 : isBound stA n.path = false)
    (h2 : lookupDeferred stA.deferredQ n.path = none) :
    passNode stA n = passNodeCore stA n := by
  unfold passNode
  rw [if_neg (by simp [h1]), h2]

/-- A pass step runs the matching attempt on an unbound node whose deferred
entry is below the retry bound. -/
theorem passNode_eval_core_some (stA : DrvState) (n : DeviceNode) (e : DeferredEntry)
    (h1 : isBound stA n.path = false)
    (h2 : lookupDeferred stA.deferredQ n.path = some e)
    (h3 : ¬stA.retryBound ≤ e.attempts) :
    passNode stA n = passNodeCore stA n := by
  unfold passNode
  rw [if_neg (by simp [h1]), h2]
  dsimp only
  rw [if_neg h3]

/-- After one matching pass over nodes with distinct paths, every node is
settled: it is bound, or its deferred entry has exhausted the retry bound, or
a further matching attempt against the post-pass state terminates without
binding and leaves the failed list unchanged. -/
theorem pass_settled (st : DrvState) (hnodes : (st.nodes.map (·.path)).Nodup)
    (n : DeviceNode) (hn : n ∈ st.nodes) :
    isBound (matchingPass st) n.path = true ∨
    (∃ e, lookupDeferred (matchingPass st).deferredQ n.path = some e ∧
      (matchingPass st).retryBound ≤ e.attempts) ∨
    matchAttempt (matchingPass st).drivers n.path n.compatible
      (attemptFuel (matchingPass st).drivers) (matchingPass st).failedPairs
      = (.noDriver, (matchingPass st).failedPairs) ∨
    (∃ d, matchAttempt (matchingPass st).drivers n.path n.compatible
      (attemptFuel (matchingPass st).drivers) (matchingPass st).failedPairs
      = (.deferredP d, (matchingPass st).failedPairs)) := by
  obtain ⟨pre, post, hsplit⟩ := List.append_of_mem hn
  have hmp : matchingPass st
      = post.foldl passNode (passNode (pre.foldl passNode st) n) := by
    unfold matchingPass
    rw [hsplit, List.foldl_append, List.foldl_cons]
  have hm2 : ((pre ++ n :: post).map (fun x => x.path)).Nodup := by
    rw [← hsplit]
    exact hnodes
  rw [List.map_append, List.map_cons] at hm2
  have hdis := List.nodup_append.mp hm2
  have hc := List.nodup_cons.mp hdis.2.1
  have hpost_ne : ∀ m ∈ post, m.path ≠ n.path :=
    fun m hm he => hc.1 (he ▸ List.mem_map_of_mem (fun x => x.path) hm)
  rw [hmp]
  rcases hbB : isBound (pre.foldl passNode st) n.path with _ | _
  · rcases hld : lookupDeferred (pre.foldl passNode st).deferredQ n.path with _ | e
    · have hpn : passNode (pre.foldl passNode st) n
          = passNodeCore (pre.foldl passNode st) n :=
        passNode_eval_core_none _ _ hbB hld
      rcases pass_settled_core (pre.foldl passNode st) n post hpost_ne hpn
          with h | h | h
      · exact Or.inl h
      · exact Or.inr (Or.inr (Or.inl h))
      · exact Or.inr (Or.inr (Or.inr h))
    · by_cases hcap : (pre.foldl passNode st).retryBound ≤ e.attempts
      · have hpn : passNode (pre.foldl passNode st) n = pre.foldl passNode st :=
          passNode_eval_skip_cap _ _ e hbB hld hcap
        obtain ⟨-, hO2, -⟩ :=
          foldl_other n.path post hpost_ne (passNode (pre.foldl passNode st) n)
        obtain ⟨-, -, hR, -, -, -, -⟩ :=
          foldl_passNode_parts post (passNode (pre.foldl passNode st) n)
        refine Or.inr (Or.inl ⟨e, ?_, ?_⟩)
        · rw [hO2, hpn]
          exact hld
        · rw [hR, hpn]
          exact hcap
      · have hpn : passNode (pre.foldl passNode st) n
            = passNodeCore (pre.foldl passNode st) n :=
          passNode_eval_core_some _ _ e hbB hld hcap
        rcases pass_settled_core (pre.foldl passNode st) n post hpost_ne hpn
            with h | h | h
        · exact Or.inl h
        · exact Or.inr (Or.inr (Or.inl h))
        · exact Or.inr (Or.inr (Or.inr h))
  · have hpn : passNode (pre.foldl passNode st) n = pre.foldl passNode st :=
      passNode_eval_skip_bound _ _ hbB
    obtain ⟨hO1, -, -⟩ :=
      foldl_other n.path post hpost_ne (passNode (pre.foldl passNode st) n)
    left
    rw [hO1, hpn]
    exact hbB

/-- Folding a matching pass over settled nodes creates no binding: a state
that agrees with the settled reference state on drivers, retry bound,
bindings and failed pairs, and on the deferred lookups of the remaining
nodes, keeps exactly the reference bindings. -/
theorem pass2_fold (st1 : DrvState) :
    ∀ (ns : List DeviceNode) (A : DrvState),
      (ns.map (·.path)).Nodup →
      (∀ n ∈ ns,
        isBound st1 n.path = true ∨
        (∃ e, lookupDeferred st1.deferredQ n.path = some e ∧
          st1.retryBound ≤ e.attempts) ∨
        matchAttempt st1.drivers n.path n.compatible (attemptFuel st1.drivers)
          st1.failedPairs = (.noDriver, st1.failedPairs) ∨
        (∃ d, matchAttempt st1.drivers n.path n.compatible (attemptFuel st1.drivers)
          st1.failedPairs = (.deferredP d, st1.failedPairs))) →
      A.drivers = st1.drivers → A.retryBound = st1.retryBound →
      A.bindings = st1.bindings → A.failedPairs = st1.failedPairs →
      (∀ n ∈ ns, lookupDeferred A.deferredQ n.path
        = lookupDeferred st1.deferredQ n.path) →
      (ns.foldl passNode A).bindings = st1.bindings := by
  intro ns
  induction ns with
  | nil =>
    intro A _ _ _ _ hbind _ _
    exact hbind
  | cons n rest ih =>
    intro A hnd hP hdrv hrb hbind hfail hlook
    rw [List.foldl_cons]
    have hnd' : (rest.map (·.path)).Nodup := by
      rw [List.map_cons] at hnd
      exact (List.nodup_cons.mp hnd).2
    have hrest_ne : ∀ m ∈ rest, m.path ≠ n.path := by
      intro m hm he
      rw [List.map_cons] at hnd
      exact (List.nodup_cons.mp hnd).1
        (he ▸ List.mem_map_of_mem (fun x => x.path) hm)
    have hlook' : ∀ m ∈ rest, lookupDeferred A.deferredQ m.path
        = lookupDeferred st1.deferredQ m.path :=
      fun m hm => hlook m (List.mem_cons_of_mem _ hm)
    have hskip : passNode A n = A →
        (rest.foldl passNode (passNode A n)).bindings = st1.bindings := by
      intro hA
      rw [hA]
      exact ih A hnd' (fun m hm => hP m (List.mem_cons_of_mem _ hm))
        hdrv hrb hbind hfail hlook'
    have hPn := hP n (List.mem_cons_self _ _)
    rcases hAb : isBound A n.path with _ | _
    · have hAb1 : isBound st1 n.path = false := by
        have hsame : isBound A n.path = isBound st1 n.path := by
          unfold isBound
          rw [hbind]
        rw [hsame] at hAb
        exact hAb
      have hgo : (matchAttempt st1.drivers n.path n.compatible (attemptFuel st1.drivers)
            st1.failedPairs = (.noDriver, st1.failedPairs) ∨
          ∃ d, matchAttempt st1.drivers n.path n.compatible (attemptFuel st1.drivers)
            st1.failedPairs = (.deferredP d, st1.failedPairs)) →
          passNode A n = passNodeCore A n →
          (rest.foldl passNode (passNode A n)).bindings = st1.bindings := by
        intro hMA hA
        have hcores : ∃ r : DeferReason, passNodeCore A n = { A with
            deferredQ := upsertDeferred A.deferredQ n.path r,
            failedPairs := st1.failedPairs } := by
          rcases hMA with h3 | ⟨d3, h3⟩
          · refine ⟨.NoDriver, ?_⟩
            unfold passNodeCore
            rw [hdrv, hfail, h3]
          · refine ⟨.ProbeDeferred, ?_⟩
            unfold passNodeCore
            rw [hdrv, hfail, h3]
        obtain ⟨r, hcoreEq⟩ := hcores
        rw [hA, hcoreEq]
        exact ih _ hnd' (fun m hm => hP m (List.mem_cons_of_mem _ hm))
          hdrv hrb hbind rfl
          (fun m hm =>
            (lookupDeferred_upsert_ne _ _ _ _ (hrest_ne m hm)).trans (hlook' m hm))
      rcases hPn with h1 | ⟨e1, he1, hcap1⟩ | h3 | ⟨d3, h3⟩
      · rw [hAb1] at h1
        cases h1
      · have hAl : lookupDeferred A.deferredQ n.path = some e1 := by
          rw [hlook n (List.mem_cons_self _ _)]
          exact he1
        have hAcap : A.retryBound ≤ e1.attempts := by
          rw [hrb]
          exact hcap1
        exact hskip (passNode_eval_skip_cap _ _ e1 hAb hAl hAcap)
      · rcases hAl : lookupDeferred A.deferredQ n.path with _ | e
        · exact hgo (Or.inl h3) (passNode_eval_core_none _ _ hAb hAl)
        · by_cases hAcap : A.retryBound ≤ e.attempts
          · exact hskip (passNode_eval_skip_cap _ _ e hAb hAl hAcap)
          · exact hgo (Or.inl h3) (passNode_eval_core_some _ _ e hAb hAl hAcap)
      · rcases hAl : lookupDeferred A.deferredQ n.path with _ | e
        · exact hgo (Or.inr ⟨d3, h3⟩) (passNode_eval_core_none _ _ hAb hAl)
        · by_cases hAcap : A.retryBound ≤ e.attempts
          · exact hskip (passNode_eval_skip_cap _ _ e hAb hAl hAcap)
          · exact hgo (Or.inr ⟨d3, h3⟩) (passNode_eval_core_some _ _ e hAb hAl hAcap)
    · exact hskip (passNode_eval_skip_bound _ _ hAb)

/-- C9: matching is deterministic — with a fixed device tree (distinct node
paths), fixed compatible lists and a fixed driver registry, running the
matching pass again over the result of a matching pass produces exactly the
same binding table: every node is already bound, retry-capped, or its fresh
matching attempt terminates without binding, so the repeated pass yields the
same node-to-driver associations. -/
theorem matching_deterministic (st : DrvState)
    (hnodes : (st.nodes.map (·.path)).Nodup) :
    (matchingPass (matchingPass st)).bindings = (matchingPass st).bindings := by
  have hnodes1 : (matchingPass st).nodes = st.nodes :=
    (foldl_passNode_parts st.nodes st).2.1
  show ((matchingPass st).nodes.foldl passNode (matchingPass st)).bindings
    = (matchingPass st).bindings
  rw [hnodes1]
  exact pass2_fold (matchingPass st) st.nodes (matchingPass st) hnodes
    (fun n hn => pass_settled st hnodes n hn)
    rfl rfl rfl rfl (fun n _ => rfl)

/-- C9 witness: a concrete registry with one driver and two nodes, one of
which binds and one of which stays without a driver; the repeated matching
pass leaves the binding table unchanged. -/
theorem matching_deterministic_witness :
    (matchingPass (matchingPass
      (⟨[⟨"usbdrv", ["acme,usb"], none, [], []⟩],
        [⟨"/soc/usb", ["acme,usb"]⟩, ⟨"/soc/i2c", ["acme,i2c"]⟩],
        [], [], [], 3⟩ : DrvState))).bindings
    = (matchingPass
      (⟨[⟨"usbdrv", ["acme,usb"], none, [], []⟩],
        [⟨"/soc/usb", ["acme,usb"]⟩, ⟨"/soc/i2c", ["acme,i2c"]⟩],
        [], [], [], 3⟩ : DrvState)).bindings :=
  matching_deterministic _ (by decide)

end LinuxBinding

